import Mathlib

/-!
Shallow embedding of the voro "facets" Voronoi-cell kernel (trunk/cell.hh,
container.hh).  The repository ships only the class declarations
(`cell.hh`, `container.hh`) and one driver (`higher_test.cc`); the bodies of
`voronoicell::plane`, `suretest::test`, `voronoicell::volume`,
`container::put`, `facets_loop::inc`, … live in `cell.cc` / `container.cc`,
which are not part of the source tree given here.  Those operations are
therefore modelled from the specification (spec.md §3, §4.A, §4.B, §4.D,
§4.E), with each such definition marked `Modelled from the spec:`.

Conventions of the model:
* the scalar type `fpoint` is embedded as `ℚ` (exact arithmetic; the spec's
  robustness tolerance `TOL` is kept as a concrete positive constant);
* vertex coordinates are stored doubled, exactly as required to make the
  spec's own scenarios consistent: with doubled storage, the classifier
  signed distance `d = x·pts[3v] + y·pts[3v+1] + z·pts[3v+2] − rsq`
  (spec §4.A) makes `plane(1,0,0,1)` the plane `x = 0.5` (spec scenario S2)
  and makes the per-seed bisector cut take `rsq = ℓ²` directly;
* a cell is carried as its vertex coordinates, the stored relational table
  `ed` / `nu` of spec §3 (each row: the cyclic neighbour half followed by
  the back-index half), and the cyclic vertex list of every face; `init`
  fills the table for the box, and `plane` mutates it — surviving rows are
  rewired slot by slot (surviving neighbours renumbered, outside
  neighbours of an inside vertex replaced by the crossing edge's contour
  vertex, spec §4.B step 4), fresh rows are appended for the contour
  vertices (§4.B step 3), and the back-index halves are re-attached.
-/

/-- The scalar type of the code (`fpoint`), embedded exactly as `ℚ`. -/
abbrev fpoint := ℚ

/-- A packed 3-vector of scalars. -/
abbrev Vec3 := ℚ × ℚ × ℚ

/-- Euclidean inner product on `Vec3`. -/
def dot3 (a b : Vec3) : ℚ :=
  a.1 * b.1 + a.2.1 * b.2.1 + a.2.2 * b.2.2

/-- Cross product on `Vec3`. -/
def cross3 (a b : Vec3) : Vec3 :=
  (a.2.1 * b.2.2 - a.2.2 * b.2.1,
   a.2.2 * b.1 - a.1 * b.2.2,
   a.1 * b.2.1 - a.2.1 * b.1)

/-- Componentwise sum on `Vec3`. -/
def add3 (a b : Vec3) : Vec3 := (a.1 + b.1, a.2.1 + b.2.1, a.2.2 + b.2.2)

/-- Modelled from the spec: the "on-plane" band half-width `TOL` of §4.A
(the numeric value lives in the missing `config.hh`; any positive constant
realises the spec, and this one is fixed for the whole development). -/
def tolerance : ℚ := 1 / 1000000000000

/-- A cutting half-space, carried as the four parameters `(x,y,z,rsq)` of
`voronoicell::plane` / `suretest::init`. -/
structure CutPlane where
  x : ℚ
  y : ℚ
  z : ℚ
  rsq : ℚ

/-- The signed distance `x·qx + y·qy + z·qz − rsq` of a (doubled-coordinate)
point against a primed plane (spec §4.A). -/
def sdist (pl : CutPlane) (v : Vec3) : ℚ :=
  pl.x * v.1 + pl.y * v.2.1 + pl.z * v.2.2 - pl.rsq

/-- Verdict of the tolerant classifier: inside / marginal (on-plane) /
outside. -/
inductive Side where
  | inside
  | on
  | outside
deriving DecidableEq

/-- Modelled from the spec: §4.A vertex classification.  `d > TOL` is
outside, `d < −TOL` is inside, the closed band `|d| ≤ TOL` is marginal. -/
def classify (pl : CutPlane) (v : Vec3) : Side :=
  if tolerance < sdist pl v then Side.outside
  else if sdist pl v < -tolerance then Side.inside
  else Side.on

/-! ## The tolerant classifier `suretest` (cell.hh lines 49–73)

The class stores a pointer `p` to the cell's coordinate array, the primed
plane `(px,py,pz,prsq)` and a side table `sn` of memoised marginal
verdicts (`sc` of the header is the table's fill count, here implicit in
the list length; `currentdubious` is only allocation bookkeeping). -/

structure suretest where
  p : List ℚ
  px : ℚ
  py : ℚ
  pz : ℚ
  prsq : ℚ
  sn : List (Nat × Int)

/-- Modelled from the spec: `suretest::init` primes the classifier with the
plane and clears the side table ("The side-table is cleared between
cuts"). -/
def suretest.init (x y z rsq : ℚ) (pts : List ℚ) : suretest :=
  ⟨pts, x, y, z, rsq, []⟩

/-- The signed distance of vertex `n` against the primed plane:
`d = x·pts[3v] + y·pts[3v+1] + z·pts[3v+2] − rsq` (spec §4.A). -/
def suretest.dist (s : suretest) (n : Nat) : ℚ :=
  s.px * s.p.getD (3 * n) 0 + s.py * s.p.getD (3 * n + 1) 0 +
    s.pz * s.p.getD (3 * n + 2) 0 - s.prsq

/-- Modelled from the spec: `suretest::test` (§4.A).  Returns the verdict
(`1` = OUTSIDE, `-1` = INSIDE), the signed distance, and the updated
classifier state.  Marginal vertices are looked up in the side table `sn`;
on a miss the deterministic rule `d ≥ 0 → OUTSIDE else INSIDE` of the spec
decides, and the verdict is recorded. -/
def suretest.test (s : suretest) (n : Nat) : Int × ℚ × suretest :=
  if tolerance < s.dist n then (1, s.dist n, s)
  else if s.dist n < -tolerance then (-1, s.dist n, s)
  else
    match s.sn.lookup n with
    | some v => (v, s.dist n, s)
    | none =>
        ((if 0 ≤ s.dist n then (1 : Int) else -1), s.dist n,
         { s with sn := (n, if 0 ≤ s.dist n then (1 : Int) else -1) :: s.sn })

/-- Running a sequence of classifier queries, keeping only the evolving
state: the repeated-test scenario of one plane cut. -/
def suretest.runTests (s : suretest) (l : List Nat) : suretest :=
  l.foldl (fun st k => (st.test k).2.2) s

/-- Position of the first occurrence of `a` in `l` (the index searches the
code performs on its integer tables), with the Boolean equality pinned to
the one decidable equality of the element type. -/
def idxOf {α : Type} [DecidableEq α] (a : α) (l : List α) : Nat :=
  List.indexOf a l

/-- The back-index half of one vertex's edge record: for each neighbour
`j` of `v`, the position at which `v` sits in `j`'s own neighbour list
(spec §3: "the position at which vertex `i` appears in the neighbour's own
list").  `rows` is the list of all neighbour lists. -/
def backsOf (rows : List (List Nat)) (v : Nat) : List Nat :=
  (rows.getD v []).map (fun j => idxOf v (rows.getD j []))

/-- Assemble the stored edge table from the neighbour lists: row `v` is
the `nu[v]` neighbour indices followed by the `nu[v]` back-indices
(spec §3; the scratch slot `2k` is always clear — invariant (5) — and is
omitted).  This is done once at every mutation, when the code updates the
back-indices "on both endpoints" (spec §4.B step 4). -/
def withBacks (rows : List (List Nat)) : List (List Nat) :=
  (List.range rows.length).map (fun v => rows.getD v [] ++ backsOf rows v)

/-! ## The cell polyhedron `voronoicell` (cell.hh lines 86–199)

The model carries the vertex coordinates (`pts`, in doubled coordinates,
spec §3), the stored per-vertex orders `nu` and the stored edge table `ed`
(row `i`: the `nu[i]` neighbour indices in cyclic order, then the `nu[i]`
back-indices — spec §3), and the cyclic vertex list of every face (the
face walk of spec §9, which the output routines use).  `init` fills the
table for the box; a plane cut rewires it: every surviving vertex's row is
mutated in place (outside neighbours replaced by the crossing's contour
vertex, spec §4.B step 4) and the new contour vertices get fresh records
(step 3).  The per-order pools `mem`/`mep`/`mec` and the delete stacks
`ds`/`ds2` of the header are only allocation scratch and are not
modelled. -/

structure voronoicell where
  pts : List Vec3
  nu : List Nat
  ed : List (List Nat)
  faces : List (List Nat)

namespace voronoicell

/-- The vertex count `p` of the cell (cell.hh line 136). -/
def p (c : voronoicell) : Nat := c.pts.length

/-- Coordinates of vertex `i` (doubled coordinates). -/
def vertexAt (c : voronoicell) (i : Nat) : Vec3 := c.pts.getD i (0, 0, 0)

/-- Classification of vertex `i` of the cell against a plane. -/
def side (c : voronoicell) (pl : CutPlane) (i : Nat) : Side :=
  classify pl (vertexAt c i)

/-- The consecutive (cyclically closed) pairs of a cyclic list. -/
def cyclicPairs (f : List Nat) : List (Nat × Nat) := f.zip (f.rotate 1)

/-- The neighbour lists of the box's 8 vertices (order 3 each), with which
`init` fills the stored edge table. -/
def initRows : List (List Nat) :=
  [[1, 2, 4], [3, 0, 5], [0, 3, 6], [2, 1, 7],
   [6, 5, 0], [4, 7, 1], [7, 4, 2], [5, 6, 3]]

/-- Modelled from the spec: `voronoicell::init` (§4.B `init_box`) resets the
cell to an axis-aligned box: 8 vertices of order 3 and 6 quadrilateral
faces, every face cycle wound so that its normal points out of the box;
the stored edge table is filled from `initRows` ("all invariants
established").  Coordinates are stored doubled. -/
def init (xmin xmax ymin ymax zmin zmax : ℚ) : voronoicell :=
  { pts := [(2*xmin, 2*ymin, 2*zmin), (2*xmax, 2*ymin, 2*zmin),
            (2*xmin, 2*ymax, 2*zmin), (2*xmax, 2*ymax, 2*zmin),
            (2*xmin, 2*ymin, 2*zmax), (2*xmax, 2*ymin, 2*zmax),
            (2*xmin, 2*ymax, 2*zmax), (2*xmax, 2*ymax, 2*zmax)],
    nu := initRows.map List.length,
    ed := withBacks initRows,
    faces := [[0, 2, 3, 1], [4, 5, 7, 6], [0, 1, 5, 4],
              [2, 6, 7, 3], [0, 4, 6, 2], [1, 3, 7, 5]] }

/-- The vertices the cut keeps: every vertex not classified outside
(spec §4.B step 4: all OUTSIDE vertices are deleted). -/
def survivors (c : voronoicell) (pl : CutPlane) : List Nat :=
  (List.range c.pts.length).filter (fun i => side c pl i ≠ Side.outside)

/-- The edges crossing the cutting plane, keyed as ordered pairs
(inside endpoint, outside endpoint); each crossing edge creates one new
contour vertex (spec §4.B step 3). -/
def crossKeys (c : voronoicell) (pl : CutPlane) : List (Nat × Nat) :=
  ((c.faces.flatMap cyclicPairs).filterMap (fun q =>
    if side c pl q.1 = Side.inside ∧ side c pl q.2 = Side.outside then some q
    else if side c pl q.1 = Side.outside ∧ side c pl q.2 = Side.inside then
      some (q.2, q.1)
    else none)).dedup

/-- The linear-interpolation intersection of a crossing edge with the
cutting plane (spec §4.B step 3). -/
def interp (c : voronoicell) (pl : CutPlane) (k : Nat × Nat) : Vec3 :=
  let a := vertexAt c k.1
  let b := vertexAt c k.2
  let t := sdist pl a / (sdist pl a - sdist pl b)
  (a.1 + t * (b.1 - a.1), a.2.1 + t * (b.2.1 - a.2.1),
   a.2.2 + t * (b.2.2 - a.2.2))

/-- Index of surviving vertex `i` in the cut cell (survivors are packed
first, in old-index order; spec §4.B step 6 permits this permutation). -/
def renumber (c : voronoicell) (pl : CutPlane) (i : Nat) : Nat :=
  idxOf i (survivors c pl)

/-- Index of the new contour vertex of crossing edge `k` in the cut cell
(new vertices are appended after the survivors). -/
def crossIdx (c : voronoicell) (pl : CutPlane) (k : Nat × Nat) : Nat :=
  (survivors c pl).length + idxOf k (crossKeys c pl)

/-- Whether the directed pair `(a,b)` crosses the plane strictly. -/
def isCrossing (c : voronoicell) (pl : CutPlane) (a b : Nat) : Prop :=
  (side c pl a = Side.inside ∧ side c pl b = Side.outside) ∨
  (side c pl a = Side.outside ∧ side c pl b = Side.inside)

instance (c : voronoicell) (pl : CutPlane) (a b : Nat) :
    Decidable (isCrossing c pl a b) := by
  unfold isCrossing; infer_instance

/-- The (inside, outside) key of a crossing pair. -/
def keyOf (c : voronoicell) (pl : CutPlane) (a b : Nat) : Nat × Nat :=
  if side c pl a = Side.inside then (a, b) else (b, a)

/-- Modelled from the spec: clipping one face cycle against the half-space
(§4.B steps 3–4): surviving vertices are kept in cyclic order, each
strictly crossing edge inserts its contour vertex, marginal (ON-PLANE)
vertices are reused as contour vertices rather than duplicated. -/
def clipFace (c : voronoicell) (pl : CutPlane) (f : List Nat) : List Nat :=
  (cyclicPairs f).flatMap (fun q =>
    (if side c pl q.1 ≠ Side.outside then [renumber c pl q.1] else []) ++
    (if isCrossing c pl q.1 q.2 then [crossIdx c pl (keyOf c pl q.1 q.2)]
     else []))

/-- The contour vertex at which a face cycle leaves the kept region: the
cyclic pair `(a,b)` with `a` kept and `b` outside contributes either the
crossing vertex of `(a,b)` or the reused marginal vertex `a` itself. -/
def exitOf (c : voronoicell) (pl : CutPlane) (f : List Nat) : Option Nat :=
  ((cyclicPairs f).filterMap (fun q =>
    if side c pl q.1 ≠ Side.outside ∧ side c pl q.2 = Side.outside then
      some (if side c pl q.1 = Side.inside then
              crossIdx c pl (q.1, q.2)
            else renumber c pl q.1)
    else none)).head?

/-- The contour vertex at which a face cycle re-enters the kept region. -/
def entryOf (c : voronoicell) (pl : CutPlane) (f : List Nat) : Option Nat :=
  ((cyclicPairs f).filterMap (fun q =>
    if side c pl q.1 = Side.outside ∧ side c pl q.2 ≠ Side.outside then
      some (if side c pl q.2 = Side.inside then
              crossIdx c pl (q.2, q.1)
            else renumber c pl q.2)
    else none)).head?

/-- The first `nu[v]` entries of the stored edge record of `v`: its
neighbour list in cyclic order. -/
def nbrHalf (c : voronoicell) (v : Nat) : List Nat :=
  (c.ed.getD v []).take (c.nu.getD v 0)

/-- Modelled from the spec: the in-place rewiring of a surviving vertex's
stored neighbour row (§4.B step 4): each surviving neighbour keeps its
(renumbered) slot in cyclic order; each OUTSIDE neighbour `w` of an inside
vertex `u` is replaced, in its slot, by the contour vertex of the crossing
edge `(u,w)`; an ON-PLANE vertex simply loses its outside neighbours. -/
def rewireRow (c : voronoicell) (pl : CutPlane) (u : Nat) : List Nat :=
  (nbrHalf c u).filterMap (fun w =>
    if side c pl w ≠ Side.outside then some (renumber c pl w)
    else if side c pl u = Side.inside then some (crossIdx c pl (u, w))
    else none)

/-- The face whose cycle traverses the directed pair `q`. -/
def faceWithPair (c : voronoicell) (q : Nat × Nat) : Option (List Nat) :=
  c.faces.find? (fun f => decide (q ∈ cyclicPairs f))

/-- The successor of the contour vertex of crossing edge `(a,b)` around
the new face: the exit point of the face that traverses the edge as
`(b,a)` (the face whose clipped cycle the new face borders there). -/
def contourNext (c : voronoicell) (pl : CutPlane) (k : Nat × Nat) :
    Option Nat :=
  (faceWithPair c (k.2, k.1)).bind (exitOf c pl)

/-- The predecessor of the contour vertex of crossing edge `(a,b)` around
the new face: the entry point of the face that traverses `(a,b)`. -/
def contourPrev (c : voronoicell) (pl : CutPlane) (k : Nat × Nat) :
    Option Nat :=
  (faceWithPair c (k.1, k.2)).bind (entryOf c pl)

/-- Modelled from the spec: the edge record of a new contour vertex (§4.B
step 3): the surviving inside endpoint of its crossing edge and its two
neighbours around the cut contour (the spec's "next new vertex around the
cut contour" plus the one closing the contour); coinciding entries are
fused (the order-2 collapse of §4.B's tie-breaking). -/
def contourRow (c : voronoicell) (pl : CutPlane) (k : Nat × Nat) :
    List Nat :=
  (renumber c pl k.1 ::
    ((contourNext c pl k).toList ++ (contourPrev c pl k).toList)).dedup

/-- The neighbour rows of the cut cell: the rewired rows of the survivors
(in surviving order) followed by the fresh records of the contour
vertices. -/
def clipRows (c : voronoicell) (pl : CutPlane) : List (List Nat) :=
  (survivors c pl).map (rewireRow c pl) ++
    (crossKeys c pl).map (contourRow c pl)

/-- The directed boundary edges of the new face, one per cut face: the new
face traverses each cut edge opposite to the clipped old face
(spec §4.B step 3: the contour of new vertices traces the boundary of the
removed region). -/
def cutEdges (c : voronoicell) (pl : CutPlane) : List (Nat × Nat) :=
  c.faces.filterMap (fun f =>
    match entryOf c pl f, exitOf c pl f with
    | some s, some e => some (s, e)
    | _, _ => none)

/-- Chain the directed cut edges into a cycle by successive lookup; the
fuel argument bounds the walk by the number of edges. -/
def walkChain (es : List (Nat × Nat)) : Nat → Nat → List Nat
  | 0, _ => []
  | fuel + 1, v =>
      v :: (match es.lookup v with
            | some w => walkChain es fuel w
            | none => [])

/-- Modelled from the spec: the cyclic vertex list of the face created by
the cut (§4.B step 3). -/
def newFace (c : voronoicell) (pl : CutPlane) : List Nat :=
  match cutEdges c pl with
  | [] => []
  | (s, _) :: _ => walkChain (cutEdges c pl) (cutEdges c pl).length s

/-- Modelled from the spec: the mutation performed by a cut that removes at
least one vertex but not all of them (§4.B steps 3–5): rewire the stored
edge table (surviving rows mutated in place, contour records appended,
back-indices updated on both endpoints), clip every face, drop faces that
degenerate below three vertices, and append the new face. -/
def clip (c : voronoicell) (pl : CutPlane) : voronoicell :=
  { pts := (survivors c pl).map (vertexAt c) ++
           (crossKeys c pl).map (interp c pl),
    nu := (clipRows c pl).map List.length,
    ed := withBacks (clipRows c pl),
    faces := (c.faces.map (clipFace c pl)).filter (fun f => 3 ≤ f.length) ++
             (if 3 ≤ (newFace c pl).length then [newFace c pl] else []) }

/-- Modelled from the spec: `voronoicell::plane` (§4.B).  Scan for an
outside vertex; if none exists, return `true` with the cell unchanged
(step 1).  If every vertex is outside, the cell becomes empty and the call
returns `false` (§7, error kind 4).  Otherwise mutate the cell by the clip
and return `true`. -/
def plane (c : voronoicell) (pl : CutPlane) : Bool × voronoicell :=
  if (List.range c.pts.length).any (fun i => side c pl i = Side.outside) then
    if (List.range c.pts.length).all (fun i => side c pl i = Side.outside) then
      (false, { pts := [], nu := [], ed := [], faces := [] })
    else (true, clip c pl)
  else (true, c)

/-- The boundary normal sum `Σ a × b` over the cyclic edges of a face;
for a planar face cycle this is twice its area vector. -/
def faceNormalSum (c : voronoicell) (f : List Nat) : Vec3 :=
  (cyclicPairs f).foldr
    (fun q acc => add3 (cross3 (vertexAt c q.1) (vertexAt c q.2)) acc)
    (0, 0, 0)

/-- The signed flux of one face: six times the signed volume of the cone
from the cell's local origin over the face (equal to the spec's sum of
signed tetrahedra fanned from the face's anchor vertex). -/
def faceFlux (c : voronoicell) (f : List Nat) : ℚ :=
  dot3 (vertexAt c (f.headD 0)) (faceNormalSum c f)

/-- Modelled from the spec: `voronoicell::volume` (§4.B) — the sum of
signed tetrahedra across all triangulated faces; the divisor 48 is the
tetrahedron factor 6 times the factor 8 of the doubled coordinates. -/
def volume (c : voronoicell) : ℚ :=
  ((c.faces.map (faceFlux c)).foldr (· + ·) 0) / 48

/-- Modelled from the spec: `voronoicell::maxradsq` — the maximum of
`pts[3i]² + pts[3i+1]² + pts[3i+2]²` over all vertices (§4.B
`max_radius_sq`), in doubled coordinates. -/
def maxradsq (c : voronoicell) : ℚ :=
  (c.pts.map (fun v => dot3 v v)).foldr max 0

/-- Modelled from the spec: `voronoicell::facet_statistics` — the face-size
histogram, mapping a size `k` to the number of faces with `k` vertices. -/
def facet_statistics (c : voronoicell) (k : Nat) : Nat :=
  (c.faces.filter (fun f => f.length = k)).length

/-! ## Reading the stored relational table

Accessors for the stored table, matching the header's `ed[i][m]` and
`nu[i]` reads; `relcheck` (cell.hh line 162) validates the half-edge
pairing invariant of the stored table. -/

/-- The stored edge-table read `ed[i][m]` (cell.hh line 99). -/
def edval (c : voronoicell) (i m : Nat) : Nat := (c.ed.getD i []).getD m 0

/-- The stored order read `nu[i]` (cell.hh line 102). -/
def nuval (c : voronoicell) (i : Nat) : Nat := c.nu.getD i 0

/-- Vertices `i` and `j` are consecutive (in either direction) in the
cyclic list `f`. -/
def adjacentInFace (f : List Nat) (i j : Nat) : Prop :=
  ∃ q ∈ voronoicell.cyclicPairs f, (q.1 = i ∧ q.2 = j) ∨ (q.1 = j ∧ q.2 = i)

instance (f : List Nat) (i j : Nat) : Decidable (adjacentInFace f i j) := by
  unfold adjacentInFace; infer_instance

/-- A classification is not outside exactly when the signed distance is at
most the tolerance. -/
theorem not_outside_iff (pl : CutPlane) (v : Vec3) :
    classify pl v ≠ Side.outside ↔ sdist pl v ≤ tolerance := by
  unfold classify
  by_cases h1 : tolerance < sdist pl v
  · simp only [if_pos h1]
    exact iff_of_false (fun hc => hc rfl) (not_le.mpr h1)
  · simp only [if_neg h1]
    have hle : sdist pl v ≤ tolerance := le_of_not_lt h1
    by_cases h2 : sdist pl v < -tolerance
    · simp only [if_pos h2]
      exact iff_of_true (by decide) hle
    · simp only [if_neg h2]
      exact iff_of_true (by decide) hle

/-- A cut that finds no outside vertex returns `true` and leaves the cell
untouched (spec §4.B step 1). -/
theorem plane_no_outside (c : voronoicell) (pl : CutPlane)
    (h : ∀ i < c.pts.length, side c pl i ≠ Side.outside) :
    plane c pl = (true, c) := by
  unfold plane
  have hany :
      ((List.range c.pts.length).any fun i =>
        side c pl i = Side.outside) = false := by
    rw [← Bool.not_eq_true, List.any_eq_true]
    rintro ⟨i, hi, hout⟩
    exact h i (List.mem_range.mp hi) (by simpa using hout)
  rw [if_neg (by simp [hany])]

/-- C1: for every initialised (non-empty) cell and every plane,
`plane(x,y,z,rsq)` returns `false` iff every original vertex of the cell is
classified outside the half-space; otherwise it returns `true`, and when no
original vertex is outside the cell — vertex set, coordinates and stored
edge table — is left completely unchanged. -/
theorem plane_false_iff_all_outside (c : voronoicell) (pl : CutPlane)
    (h : 0 < c.pts.length) :
    ((plane c pl).1 = false ↔ ∀ i < c.pts.length, side c pl i = Side.outside) ∧
    ((∀ i < c.pts.length, side c pl i ≠ Side.outside) → (plane c pl).2 = c) := by
  refine ⟨?_, fun hno => by rw [plane_no_outside c pl hno]⟩
  by_cases hall : ∀ i < c.pts.length, side c pl i = Side.outside
  · have hany :
        ((List.range c.pts.length).any fun i =>
          side c pl i = Side.outside) = true := by
      rw [List.any_eq_true]
      exact ⟨0, List.mem_range.mpr h, by simp [hall 0 h]⟩
    have hallb :
        ((List.range c.pts.length).all fun i =>
          side c pl i = Side.outside) = true := by
      rw [List.all_eq_true]
      exact fun i hi => by simp [hall i (List.mem_range.mp hi)]
    unfold plane
    rw [if_pos (by simp [hany]), if_pos (by simp [hallb])]
    exact iff_of_true rfl hall
  · refine iff_of_false ?_ hall
    unfold plane
    by_cases hany :
        ((List.range c.pts.length).any fun i =>
          side c pl i = Side.outside) = true
    · have hallb :
          ¬ ((List.range c.pts.length).all fun i =>
            side c pl i = Side.outside) = true := by
        rw [List.all_eq_true]
        intro hk
        exact hall fun i hi => by simpa using hk i (List.mem_range.mpr hi)
      rw [if_pos (by simp [hany]), if_neg (by simpa using hallb)]
      simp
    · rw [if_neg (by simpa using hany)]
      simp

/-- A sample initialised cell: the unit box. -/
def testBox : voronoicell := voronoicell.init 0 1 0 1 0 1

/-- Witness for C1: the unit box cut by the plane of scenario S6
(`plane(1,0,0,−1)`, every vertex outside) makes `plane` return `false`. -/
theorem plane_false_iff_all_outside_witness :
    (plane testBox ⟨1, 0, 0, -1⟩).1 = false := by
  have h8 : testBox.pts.length = 8 := rfl
  refine (plane_false_iff_all_outside testBox ⟨1, 0, 0, -1⟩
    (by rw [h8]; decide)).1.mpr ?_
  intro i hi
  rw [h8] at hi
  interval_cases i <;>
    norm_num [side, classify, sdist, vertexAt, testBox, init, tolerance]

theorem tolerance_pos : 0 < tolerance := by norm_num [tolerance]

theorem classify_eq_outside (pl : CutPlane) (v : Vec3)
    (h : classify pl v = Side.outside) : tolerance < sdist pl v := by
  by_contra hc
  exact (not_outside_iff pl v).mpr (le_of_not_lt hc) h

theorem classify_eq_inside (pl : CutPlane) (v : Vec3)
    (h : classify pl v = Side.inside) : sdist pl v < -tolerance := by
  unfold classify at h
  by_cases h1 : tolerance < sdist pl v
  · rw [if_pos h1] at h; exact absurd h (by decide)
  · rw [if_neg h1] at h
    by_cases h2 : sdist pl v < -tolerance
    · exact h2
    · rw [if_neg h2] at h; exact absurd h (by decide)

/-- The signed distance is affine along a segment. -/
theorem sdist_affine (pl : CutPlane) (a b : Vec3) (t : ℚ) :
    sdist pl (a.1 + t * (b.1 - a.1), a.2.1 + t * (b.2.1 - a.2.1),
      a.2.2 + t * (b.2.2 - a.2.2)) =
    sdist pl a + t * (sdist pl b - sdist pl a) := by
  unfold sdist; ring

/-- Every crossing key records a strictly inside endpoint first and a
strictly outside endpoint second. -/
theorem crossKeys_sides (c : voronoicell) (pl : CutPlane) (k : Nat × Nat)
    (h : k ∈ crossKeys c pl) :
    side c pl k.1 = Side.inside ∧ side c pl k.2 = Side.outside := by
  unfold crossKeys at h
  rw [List.mem_dedup, List.mem_filterMap] at h
  obtain ⟨q, _, heq⟩ := h
  split_ifs at heq with h1 h2
  · cases heq; exact h1
  · cases heq; exact ⟨h2.2, h2.1⟩

/-- New contour vertices lie exactly on the cutting plane. -/
theorem sdist_interp_zero (c : voronoicell) (pl : CutPlane) (k : Nat × Nat)
    (h : k ∈ crossKeys c pl) : sdist pl (interp c pl k) = 0 := by
  obtain ⟨hin, hout⟩ := crossKeys_sides c pl k h
  have hda : sdist pl (vertexAt c k.1) < -tolerance := classify_eq_inside _ _ hin
  have hdb : tolerance < sdist pl (vertexAt c k.2) := classify_eq_outside _ _ hout
  have hne : sdist pl (vertexAt c k.1) - sdist pl (vertexAt c k.2) ≠ 0 := by
    have := tolerance_pos; intro hz; nlinarith
  unfold interp
  rw [sdist_affine]
  field_simp
  ring

/-- Every vertex of the clipped cell has signed distance at most the
tolerance (survivors were not outside; contour vertices are on the
plane). -/
theorem clip_sdist_le (c : voronoicell) (pl : CutPlane) (v : Vec3)
    (h : v ∈ (clip c pl).pts) : sdist pl v ≤ tolerance := by
  unfold clip at h
  rw [List.mem_append] at h
  rcases h with h | h
  · rw [List.mem_map] at h
    obtain ⟨s, hs, rfl⟩ := h
    unfold survivors at hs
    rw [List.mem_filter] at hs
    have : side c pl s ≠ Side.outside := by simpa using hs.2
    exact (not_outside_iff pl (vertexAt c s)).mp this
  · rw [List.mem_map] at h
    obtain ⟨k, hk, rfl⟩ := h
    rw [sdist_interp_zero c pl k hk]
    exact le_of_lt tolerance_pos

/-- Every vertex of the cell returned by a plane call has signed distance
at most the tolerance against that same plane. -/
theorem plane_snd_sdist_le (c : voronoicell) (pl : CutPlane) (v : Vec3)
    (h : v ∈ ((plane c pl).2).pts) : sdist pl v ≤ tolerance := by
  unfold plane at h
  by_cases hany :
      ((List.range c.pts.length).any fun i =>
        side c pl i = Side.outside) = true
  · by_cases hall :
        ((List.range c.pts.length).all fun i =>
          side c pl i = Side.outside) = true
    · rw [if_pos (by simpa using hany), if_pos (by simpa using hall)] at h
      simp at h
    · rw [if_pos (by simpa using hany), if_neg (by simpa using hall)] at h
      exact clip_sdist_le c pl v h
  · rw [if_neg (by simpa using hany)] at h
    obtain ⟨n, hn, rfl⟩ := List.mem_iff_getElem.mp h
    have hside : side c pl n ≠ Side.outside := by
      intro hs
      exact hany (List.any_eq_true.mpr
        ⟨n, List.mem_range.mpr hn, by simp [hs]⟩)
    unfold side at hside
    have hle := (not_outside_iff pl (vertexAt c n)).mp hside
    rwa [vertexAt, List.getD_eq_getElem _ _ hn] at hle

/-- C5: cutting a cell by the same plane twice is equivalent to cutting it
once: the second identical plane call leaves the cell (vertices,
coordinates and faces) unchanged. -/
theorem plane_idempotent (c : voronoicell) (pl : CutPlane) :
    (plane ((plane c pl).2) pl).2 = (plane c pl).2 := by
  rw [plane_no_outside ((plane c pl).2) pl]
  intro i hi
  have hmem : ((plane c pl).2).pts[i] ∈ ((plane c pl).2).pts :=
    List.getElem_mem hi
  have hle := plane_snd_sdist_le c pl _ hmem
  unfold side
  rw [not_outside_iff]
  rwa [vertexAt, List.getD_eq_getElem _ _ hi]

end voronoicell

/-! ## The container's per-seed computation (container.hh lines 26–51)

`container::compute_cell` drives a cursor over grid blocks and cuts the
cell by the perpendicular bisector of the seed and each candidate found in
each block (spec §4.D).  A block is abstracted here by the data the
stopping rule consults: its minimum squared distance to the seed and the
seed-relative candidate displacements it stores. -/

/-- Modelled from the spec: the bisector cutting plane of a candidate at
displacement `t` from the seed, passed as `(tx,ty,tz, ℓ²)` with
`ℓ² = |t|²` (§4.D; in doubled vertex coordinates the half-space test
`2 q·t ≤ ℓ²` is exactly `sdist ≤ 0`). -/
def bisector (t : Vec3) : CutPlane := ⟨t.1, t.2.1, t.2.2, dot3 t t⟩

/-- A grid block as seen by the per-seed loop: the minimum squared distance
from the seed to any point of the block, and the candidate displacements
stored in it. -/
structure GridBlock where
  mindistsq : ℚ
  seeds : List Vec3

namespace container

/-- Cutting the cell by every candidate of one block, in order. -/
def cutBlock (c : voronoicell) (b : GridBlock) : voronoicell :=
  b.seeds.foldl (fun cl t => (voronoicell.plane cl (bisector t)).2) c

/-- Modelled from the spec: the cutting loop of `container::compute_cell`
(§4.D): fold the bisector cuts of every block the cursor yields, in cursor
order. -/
def compute_cell (c0 : voronoicell) (blocks : List GridBlock) : voronoicell :=
  blocks.foldl cutBlock c0

theorem dot3_self_nonneg (v : Vec3) : 0 ≤ dot3 v v := by
  unfold dot3
  nlinarith [sq_nonneg v.1, sq_nonneg v.2.1, sq_nonneg v.2.2]

/-- Cauchy–Schwarz in three dimensions, via the Lagrange identity. -/
theorem cauchy3 (t v : Vec3) : dot3 t v ^ 2 ≤ dot3 t t * dot3 v v := by
  unfold dot3
  nlinarith [sq_nonneg (t.1 * v.2.1 - t.2.1 * v.1),
    sq_nonneg (t.1 * v.2.2 - t.2.2 * v.1),
    sq_nonneg (t.2.1 * v.2.2 - t.2.2 * v.2.1)]

theorem le_foldr_max (l : List ℚ) (x : ℚ) (h : x ∈ l) : x ≤ l.foldr max 0 := by
  induction l with
  | nil => cases h
  | cons a as ih =>
    rcases List.mem_cons.mp h with rfl | h2
    · exact le_max_left _ _
    · exact le_trans (ih h2) (le_max_right _ _)

/-- Every vertex radius is bounded by `maxradsq`. -/
theorem le_maxradsq (c : voronoicell) (i : Nat) (hi : i < c.pts.length) :
    dot3 (voronoicell.vertexAt c i) (voronoicell.vertexAt c i) ≤
      voronoicell.maxradsq c := by
  unfold voronoicell.maxradsq
  apply le_foldr_max
  rw [voronoicell.vertexAt, List.getD_eq_getElem _ _ hi]
  exact List.mem_map_of_mem _ (List.getElem_mem hi)

/-- A candidate whose squared distance exceeds the cell's maximum squared
vertex radius cannot classify any vertex outside, so its bisector cut
leaves the cell exactly unchanged. -/
theorem plane_bisector_far (c : voronoicell) (t : Vec3)
    (h : voronoicell.maxradsq c < dot3 t t) :
    voronoicell.plane c (bisector t) = (true, c) := by
  apply voronoicell.plane_no_outside
  intro i hi
  unfold voronoicell.side
  rw [voronoicell.not_outside_iff]
  have hv := le_maxradsq c i hi
  have hsd : sdist (bisector t) (voronoicell.vertexAt c i) =
      dot3 t (voronoicell.vertexAt c i) - dot3 t t := by
    unfold sdist bisector dot3; ring
  rw [hsd]
  nlinarith [cauchy3 t (voronoicell.vertexAt c i), dot3_self_nonneg t,
    dot3_self_nonneg (voronoicell.vertexAt c i), voronoicell.tolerance_pos,
    hv, h]

theorem foldl_bisector_far (c : voronoicell) (l : List Vec3)
    (h : ∀ t ∈ l, voronoicell.maxradsq c < dot3 t t) :
    l.foldl (fun cl t => (voronoicell.plane cl (bisector t)).2) c = c := by
  induction l with
  | nil => rfl
  | cons a as ih =>
    have h1 : voronoicell.plane c (bisector a) = (true, c) :=
      plane_bisector_far c a (h a (by simp))
    simp only [List.foldl_cons, h1]
    exact ih fun t ht => h t (by simp [ht])

theorem foldl_cutBlock_far (c : voronoicell) (blocks : List GridBlock)
    (hblocks : ∀ b ∈ blocks, ∀ t ∈ b.seeds, b.mindistsq ≤ dot3 t t)
    (hstop : ∀ b ∈ blocks, voronoicell.maxradsq c < b.mindistsq) :
    blocks.foldl cutBlock c = c := by
  induction blocks with
  | nil => rfl
  | cons b bs ih =>
    have hb : cutBlock c b = c := by
      unfold cutBlock
      apply foldl_bisector_far
      intro t ht
      exact lt_of_lt_of_le (hstop b (by simp))
        (hblocks b (by simp) t ht)
    simp only [List.foldl_cons, hb]
    exact ih (fun b2 h2 => hblocks b2 (by simp [h2]))
      (fun b2 h2 => hstop b2 (by simp [h2]))

/-- C6: the early-termination rule of `container::compute_cell` is sound:
when the minimum squared distance from the seed to every point of every
not-yet-visited block exceeds the cell's current maximum squared vertex
radius, stopping yields the same final cell as processing all the
remaining blocks. -/
theorem compute_cell_early_termination (c0 : voronoicell)
    (visited unvisited : List GridBlock)
    (hblocks : ∀ b ∈ unvisited, ∀ t ∈ b.seeds, b.mindistsq ≤ dot3 t t)
    (hstop : ∀ b ∈ unvisited,
      voronoicell.maxradsq (compute_cell c0 visited) < b.mindistsq) :
    compute_cell c0 (visited ++ unvisited) = compute_cell c0 visited := by
  unfold compute_cell
  rw [List.foldl_append]
  exact foldl_cutBlock_far _ unvisited hblocks hstop

/-- Witness for C6: for the unit box (maximum squared vertex radius 12 in
doubled coordinates) and one unvisited block at squared distance 13
holding a candidate at displacement `(4,0,0)`, stopping early changes
nothing. -/
theorem compute_cell_early_termination_witness :
    compute_cell voronoicell.testBox ([] ++ [⟨13, [(4, 0, 0)]⟩]) =
      compute_cell voronoicell.testBox [] := by
  apply compute_cell_early_termination
  · intro b hb t ht
    rw [List.mem_singleton] at hb
    subst hb
    rw [List.mem_singleton] at ht
    subst ht
    norm_num [dot3]
  · intro b hb
    rw [List.mem_singleton] at hb
    subst hb
    show voronoicell.maxradsq voronoicell.testBox < _
    norm_num [voronoicell.maxradsq, voronoicell.testBox, voronoicell.init,
      dot3, max_def]

end container

/-! ## Claim C3: the tolerant classifier's contract -/

/-- One classifier query does not change the primed plane or the
coordinate array, hence not the signed distance of any vertex. -/
theorem suretest.dist_test (s : suretest) (k n : Nat) :
    ((s.test k).2.2).dist n = s.dist n := by
  unfold suretest.test
  rcases hlk : s.sn.lookup k with _ | w <;>
    simp only [hlk] <;> split_ifs <;> rfl

/-- One classifier query preserves every memoised verdict. -/
theorem suretest.lookup_test (s : suretest) (k n : Nat) (v : Int)
    (h : s.sn.lookup n = some v) :
    ((s.test k).2.2).sn.lookup n = some v := by
  unfold suretest.test
  rcases hlk : s.sn.lookup k with _ | w
  · have hnk : n ≠ k := by
      intro he; rw [he, hlk] at h; cases h
    simp only [hlk]
    split_ifs <;>
      simp only [List.lookup_cons, beq_eq_false_iff_ne.mpr hnk] <;> exact h
  · simp only [hlk]
    split_ifs <;> exact h

theorem suretest.runTests_dist (s : suretest) (l : List Nat) (n : Nat) :
    (s.runTests l).dist n = s.dist n := by
  induction l generalizing s with
  | nil => rfl
  | cons a as ih =>
    show ((s.test a).2.2.runTests as).dist n = s.dist n
    rw [ih, suretest.dist_test]

theorem suretest.runTests_lookup (s : suretest) (l : List Nat) (n : Nat)
    (v : Int) (h : s.sn.lookup n = some v) :
    (s.runTests l).sn.lookup n = some v := by
  induction l generalizing s with
  | nil => exact h
  | cons a as ih =>
    exact ih _ (suretest.lookup_test s a n v h)

/-- A marginal first query memoises its verdict in the side table. -/
theorem suretest.test_memoises (s : suretest) (n : Nat)
    (h1 : ¬ tolerance < s.dist n) (h2 : ¬ s.dist n < -tolerance) :
    ((s.test n).2.2).sn.lookup n = some (s.test n).1 := by
  unfold suretest.test
  rw [if_neg h1, if_neg h2]
  rcases hlk : s.sn.lookup n with _ | w
  · simp [hlk, List.lookup_cons]
  · simp [hlk]

/-- A marginal query against a state that has already memoised a verdict
returns exactly that verdict. -/
theorem suretest.test_of_lookup (st : suretest) (n : Nat) (v : Int)
    (h1 : ¬ tolerance < st.dist n) (h2 : ¬ st.dist n < -tolerance)
    (h : st.sn.lookup n = some v) : (st.test n).1 = v := by
  unfold suretest.test
  rw [if_neg h1, if_neg h2, h]

/-- C3: classification of a vertex against a primed plane: `OUTSIDE` (1)
when the signed distance exceeds `TOL`, `INSIDE` (−1) when it is below
`−TOL`, and for marginal vertices (`|d| ≤ TOL`) a verdict memoised in the
side table `sn`, so that every repeated test of the same vertex during the
same plane cut returns the identical verdict. -/
theorem suretest.test_spec (s : suretest) (n : Nat) :
    (tolerance < s.dist n → (s.test n).1 = 1) ∧
    (s.dist n < -tolerance → (s.test n).1 = -1) ∧
    (|s.dist n| ≤ tolerance →
      ∀ l : List Nat,
        ((((s.test n).2.2).runTests l).test n).1 = (s.test n).1) := by
  refine ⟨?_, ?_, ?_⟩
  · intro h
    unfold suretest.test
    rw [if_pos h]
  · intro h
    unfold suretest.test
    rw [if_neg (not_lt.mpr (by linarith [voronoicell.tolerance_pos])),
      if_pos h]
  · intro h l
    have hb := abs_le.mp h
    have h1 : ¬ tolerance < s.dist n := not_lt.mpr hb.2
    have h2 : ¬ s.dist n < -tolerance := not_lt.mpr hb.1
    have hmemo := suretest.test_memoises s n h1 h2
    have hlook := suretest.runTests_lookup _ l n _ hmemo
    have hdist : (((s.test n).2.2).runTests l).dist n = s.dist n := by
      rw [suretest.runTests_dist, suretest.dist_test]
    exact suretest.test_of_lookup _ n _ (by rw [hdist]; exact h1)
      (by rw [hdist]; exact h2) hlook

/-- Witness for C3: a marginal vertex (`d = 0`) is queried, an unrelated
vertex is queried in between, and the repeated query of the marginal
vertex returns the identical verdict. -/
theorem suretest.test_spec_witness :
    ((((suretest.init 1 0 0 0 [0, 0, 0]).test 0).2.2.runTests [1]).test 0).1 =
      ((suretest.init 1 0 0 0 [0, 0, 0]).test 0).1 :=
  (suretest.test_spec (suretest.init 1 0 0 0 [0, 0, 0]) 0).2.2
    (by norm_num [suretest.dist, suretest.init, tolerance, List.getD]) [1]

/-! ## The block-iteration cursor `facets_loop` (container.hh lines 111–127)

The cursor walks the sub-grid `[ai,bi]×[aj,bj]×[ak,bk]` in lexicographic
order.  The header's fields `i,j,k` (current sub-grid position),
`ip,jp,kp` (canonical images), `aip,ajp` (canonical images of the row
starts), `apx,apy,apz` (current periodic offset) and `sx,sy,sz` (the box
side lengths `bx−ax`, `by−ay`, `bz−az`) are carried here; `aapx,aapy`
stand for the row-start offsets that the header's init-time bookkeeping
(`inc1`, `inc2`, `s`) maintains; `xsp,…`, `ax,…`, `nxyz` and the
periodicity flags only feed initialisation and are omitted. -/

structure facets_loop where
  i : Int
  j : Int
  k : Int
  ip : Int
  jp : Int
  kp : Int
  ai : Int
  bi : Int
  aj : Int
  bj : Int
  ak : Int
  bk : Int
  aip : Int
  ajp : Int
  apx : ℚ
  apy : ℚ
  apz : ℚ
  aapx : ℚ
  aapy : ℚ
  sx : ℚ
  sy : ℚ
  sz : ℚ
  nx : Int
  ny : Int
  nz : Int
  nxy : Int

/-- Modelled from the spec: `facets_loop::step_mod` — the canonical
reduction `((a mod b) + b) mod b` of §4.E. -/
def step_mod (a b : Int) : Int := ((a % b) + b) % b

/-- Modelled from the spec: `facets_loop::step_div` — the matching
quotient, so that the offset of §4.E is `step_div i nx · (bx − ax)`. -/
def step_div (a b : Int) : Int := (a - step_mod a b) / b

/-- The value a cursor position yields: the block index
`ip + ny·jp + nxy·kp` of spec §4.E together with the periodic offset
`(apx, apy, apz)`. -/
def facets_loop.yieldOf (L : facets_loop) : Int × (ℚ × ℚ × ℚ) :=
  (L.ip + L.ny * L.jp + L.nxy * L.kp, (L.apx, L.apy, L.apz))

/-- One lexicographic step along the x axis: `i` advances and the
canonical image and offset are maintained incrementally, the offset
growing by the box side length on wraparound (spec §4.E). -/
def facets_loop.stepX (L : facets_loop) : facets_loop :=
  if L.ip + 1 = L.nx then { L with i := L.i + 1, ip := 0, apx := L.apx + L.sx }
  else { L with i := L.i + 1, ip := L.ip + 1 }

/-- Restore the x axis to the row start, from the precomputed canonical
data of `ai`. -/
def facets_loop.resetX (L : facets_loop) : facets_loop :=
  { L with i := L.ai, ip := L.aip, apx := L.aapx }

/-- One step along the y axis (as `facets_loop.stepX`). -/
def facets_loop.stepY (L : facets_loop) : facets_loop :=
  if L.jp + 1 = L.ny then { L with j := L.j + 1, jp := 0, apy := L.apy + L.sy }
  else { L with j := L.j + 1, jp := L.jp + 1 }

/-- Restore the y axis to the row start, from the precomputed canonical
data of `aj`. -/
def facets_loop.resetY (L : facets_loop) : facets_loop :=
  { L with j := L.aj, jp := L.ajp, apy := L.aapy }

/-- One step along the z axis (as `facets_loop.stepX`). -/
def facets_loop.stepZ (L : facets_loop) : facets_loop :=
  if L.kp + 1 = L.nz then { L with k := L.k + 1, kp := 0, apz := L.apz + L.sz }
  else { L with k := L.k + 1, kp := L.kp + 1 }

/-- Modelled from the spec: `facets_loop::inc` (§4.E) — step `(i,j,k)`
lexicographically through the sub-grid, maintaining the canonical images
incrementally and updating the offsets by the box side length whenever an
axis wraps.  Returns the yielded block value and the new state, or `none`
at the end of the sub-grid. -/
def facets_loop.inc (L : facets_loop) :
    Option ((Int × (ℚ × ℚ × ℚ)) × facets_loop) :=
  if L.i < L.bi then some (L.stepX.yieldOf, L.stepX)
  else if L.j < L.bj then
    some (L.resetX.stepY.yieldOf, L.resetX.stepY)
  else if L.k < L.bk then
    some (L.resetX.resetY.stepZ.yieldOf, L.resetX.resetY.stepZ)
  else none

/-- One axis of the cursor is canonical: the stored image `ip` and offset
`ap` agree with the Euclidean decomposition of the raw coordinate. -/
def facets_loop.canonicalAxis (n i ip : Int) (ap s : ℚ) : Prop :=
  ∃ q : Int, i = n * q + ip ∧ 0 ≤ ip ∧ ip < n ∧ ap = (q : ℚ) * s

/-- The cursor state is canonical on all three axes, including the stored
row-start data. -/
def facets_loop.canonical (L : facets_loop) : Prop :=
  0 < L.nx ∧ 0 < L.ny ∧ 0 < L.nz ∧
  facets_loop.canonicalAxis L.nx L.i L.ip L.apx L.sx ∧
  facets_loop.canonicalAxis L.ny L.j L.jp L.apy L.sy ∧
  facets_loop.canonicalAxis L.nz L.k L.kp L.apz L.sz ∧
  facets_loop.canonicalAxis L.nx L.ai L.aip L.aapx L.sx ∧
  facets_loop.canonicalAxis L.ny L.aj L.ajp L.aapy L.sy

theorem step_mod_rep (n q r : Int) (h0 : 0 ≤ r) (hr : r < n) :
    step_mod (n * q + r) n = r := by
  unfold step_mod
  have h1 : (n * q + r) % n = r := by
    rw [add_comm, Int.add_mul_emod_self_left, Int.emod_eq_of_lt h0 hr]
  rw [h1]
  have h2 : r + n = r + n * 1 := by ring
  rw [h2, Int.add_mul_emod_self_left, Int.emod_eq_of_lt h0 hr]

theorem step_div_rep (n q r : Int) (hn : 0 < n) (h0 : 0 ≤ r) (hr : r < n) :
    step_div (n * q + r) n = q := by
  unfold step_div
  rw [step_mod_rep n q r h0 hr]
  have h1 : n * q + r - r = n * q := by ring
  rw [h1, Int.mul_ediv_cancel_left _ (ne_of_gt hn)]

/-- A canonical axis satisfies the spec's closed-form formulas. -/
theorem facets_loop.canonicalAxis_formulas (n i ip : Int) (ap s : ℚ)
    (hn : 0 < n) (h : facets_loop.canonicalAxis n i ip ap s) :
    ip = step_mod i n ∧ ap = (step_div i n : ℚ) * s := by
  obtain ⟨q, hi, h0, hlt, hap⟩ := h
  subst hi
  rw [step_mod_rep n q ip h0 hlt, step_div_rep n q ip hn h0 hlt]
  exact ⟨rfl, hap⟩

/-- Stepping one axis preserves canonicity, with and without wrap. -/
theorem facets_loop.canonicalAxis_step (n i ip : Int) (ap s : ℚ)
    (h : facets_loop.canonicalAxis n i ip ap s) :
    (ip + 1 = n → facets_loop.canonicalAxis n (i + 1) 0 (ap + s) s) ∧
    (ip + 1 ≠ n → facets_loop.canonicalAxis n (i + 1) (ip + 1) ap s) := by
  obtain ⟨q, hi, h0, hlt, hap⟩ := h
  constructor
  · intro hw
    refine ⟨q + 1, by rw [hi, ← hw]; ring, le_refl 0, by omega, ?_⟩
    rw [hap]
    push_cast
    ring
  · intro hw
    exact ⟨q, by omega, by omega, by omega, hap⟩

/-- A canonical state yields exactly the spec formulas. -/
theorem facets_loop.yield_formulas (L : facets_loop)
    (axq bxq ayq byq azq bzq : ℚ) (h : facets_loop.canonical L)
    (hsx : L.sx = bxq - axq) (hsy : L.sy = byq - ayq)
    (hsz : L.sz = bzq - azq) :
    L.ip = step_mod L.i L.nx ∧ L.jp = step_mod L.j L.ny ∧
    L.kp = step_mod L.k L.nz ∧
    L.apx = (step_div L.i L.nx : ℚ) * (bxq - axq) ∧
    L.apy = (step_div L.j L.ny : ℚ) * (byq - ayq) ∧
    L.apz = (step_div L.k L.nz : ℚ) * (bzq - azq) ∧
    L.yieldOf = (step_mod L.i L.nx + L.ny * step_mod L.j L.ny +
      L.nxy * step_mod L.k L.nz, (L.apx, L.apy, L.apz)) := by
  obtain ⟨hnx, hny, hnz, hx, hyax, hzax, _, _⟩ := h
  obtain ⟨hip, hapx⟩ := facets_loop.canonicalAxis_formulas _ _ _ _ _ hnx hx
  obtain ⟨hjp, hapy⟩ := facets_loop.canonicalAxis_formulas _ _ _ _ _ hny hyax
  obtain ⟨hkp, hapz⟩ := facets_loop.canonicalAxis_formulas _ _ _ _ _ hnz hzax
  refine ⟨hip, hjp, hkp, by rw [hapx, hsx], by rw [hapy, hsy],
    by rw [hapz, hsz], ?_⟩
  unfold facets_loop.yieldOf
  rw [hip, hjp, hkp]

theorem facets_loop.stepX_s (L : facets_loop) :
    L.stepX.sx = L.sx ∧ L.stepX.sy = L.sy ∧ L.stepX.sz = L.sz := by
  unfold facets_loop.stepX; split_ifs <;> exact ⟨rfl, rfl, rfl⟩

theorem facets_loop.stepY_s (L : facets_loop) :
    L.stepY.sx = L.sx ∧ L.stepY.sy = L.sy ∧ L.stepY.sz = L.sz := by
  unfold facets_loop.stepY; split_ifs <;> exact ⟨rfl, rfl, rfl⟩

theorem facets_loop.stepZ_s (L : facets_loop) :
    L.stepZ.sx = L.sx ∧ L.stepZ.sy = L.sy ∧ L.stepZ.sz = L.sz := by
  unfold facets_loop.stepZ; split_ifs <;> exact ⟨rfl, rfl, rfl⟩

theorem facets_loop.canonical_stepX (L : facets_loop)
    (h : facets_loop.canonical L) : facets_loop.canonical L.stepX := by
  obtain ⟨hnx, hny, hnz, hx, hyax, hzax, hax, hay⟩ := h
  unfold facets_loop.stepX
  by_cases hw : L.ip + 1 = L.nx
  · rw [if_pos hw]
    exact ⟨hnx, hny, hnz, (facets_loop.canonicalAxis_step _ _ _ _ _ hx).1 hw,
      hyax, hzax, hax, hay⟩
  · rw [if_neg hw]
    exact ⟨hnx, hny, hnz, (facets_loop.canonicalAxis_step _ _ _ _ _ hx).2 hw,
      hyax, hzax, hax, hay⟩

theorem facets_loop.canonical_resetX (L : facets_loop)
    (h : facets_loop.canonical L) : facets_loop.canonical L.resetX := by
  obtain ⟨hnx, hny, hnz, hx, hyax, hzax, hax, hay⟩ := h
  exact ⟨hnx, hny, hnz, hax, hyax, hzax, hax, hay⟩

theorem facets_loop.canonical_stepY (L : facets_loop)
    (h : facets_loop.canonical L) : facets_loop.canonical L.stepY := by
  obtain ⟨hnx, hny, hnz, hx, hyax, hzax, hax, hay⟩ := h
  unfold facets_loop.stepY
  by_cases hw : L.jp + 1 = L.ny
  · rw [if_pos hw]
    exact ⟨hnx, hny, hnz, hx,
      (facets_loop.canonicalAxis_step _ _ _ _ _ hyax).1 hw, hzax, hax, hay⟩
  · rw [if_neg hw]
    exact ⟨hnx, hny, hnz, hx,
      (facets_loop.canonicalAxis_step _ _ _ _ _ hyax).2 hw, hzax, hax, hay⟩

theorem facets_loop.canonical_resetY (L : facets_loop)
    (h : facets_loop.canonical L) : facets_loop.canonical L.resetY := by
  obtain ⟨hnx, hny, hnz, hx, hyax, hzax, hax, hay⟩ := h
  exact ⟨hnx, hny, hnz, hx, hay, hzax, hax, hay⟩

theorem facets_loop.canonical_stepZ (L : facets_loop)
    (h : facets_loop.canonical L) : facets_loop.canonical L.stepZ := by
  obtain ⟨hnx, hny, hnz, hx, hyax, hzax, hax, hay⟩ := h
  unfold facets_loop.stepZ
  by_cases hw : L.kp + 1 = L.nz
  · rw [if_pos hw]
    exact ⟨hnx, hny, hnz, hx, hyax,
      (facets_loop.canonicalAxis_step _ _ _ _ _ hzax).1 hw, hax, hay⟩
  · rw [if_neg hw]
    exact ⟨hnx, hny, hnz, hx, hyax,
      (facets_loop.canonicalAxis_step _ _ _ _ _ hzax).2 hw, hax, hay⟩

/-- C9: every cursor step resolves the stepped sub-grid coordinates to
canonical block coordinates `ip = ((i mod nx) + nx) mod nx` (similarly for
j and k), computes the periodic offset `apx = ((i − ip)/nx)·(bx − ax)`
(similarly apy, apz), and yields the block index `ip + ny·jp + nxy·kp`
together with the offset `(apx, apy, apz)`. -/
theorem facets_loop.inc_canonical (L L' : facets_loop)
    (y : Int × (ℚ × ℚ × ℚ)) (axq bxq ayq byq azq bzq : ℚ)
    (h : facets_loop.canonical L) (hinc : L.inc = some (y, L'))
    (hsx : L.sx = bxq - axq) (hsy : L.sy = byq - ayq)
    (hsz : L.sz = bzq - azq) :
    facets_loop.canonical L' ∧
    L'.ip = step_mod L'.i L'.nx ∧ L'.jp = step_mod L'.j L'.ny ∧
    L'.kp = step_mod L'.k L'.nz ∧
    L'.apx = (step_div L'.i L'.nx : ℚ) * (bxq - axq) ∧
    L'.apy = (step_div L'.j L'.ny : ℚ) * (byq - ayq) ∧
    L'.apz = (step_div L'.k L'.nz : ℚ) * (bzq - azq) ∧
    y = (step_mod L'.i L'.nx + L'.ny * step_mod L'.j L'.ny +
      L'.nxy * step_mod L'.k L'.nz, (L'.apx, L'.apy, L'.apz)) := by
  unfold facets_loop.inc at hinc
  split_ifs at hinc with hb1 hb2 hb3
  · simp only [Option.some.injEq, Prod.mk.injEq] at hinc
    obtain ⟨hy, hL⟩ := hinc
    subst hL; subst hy
    have hcan := facets_loop.canonical_stepX L h
    have hs := facets_loop.stepX_s L
    have hf := facets_loop.yield_formulas _ axq bxq ayq byq azq bzq hcan
      (hs.1.trans hsx) (hs.2.1.trans hsy) (hs.2.2.trans hsz)
    exact ⟨hcan, hf.1, hf.2.1, hf.2.2.1, hf.2.2.2.1, hf.2.2.2.2.1,
      hf.2.2.2.2.2.1, hf.2.2.2.2.2.2⟩
  · simp only [Option.some.injEq, Prod.mk.injEq] at hinc
    obtain ⟨hy, hL⟩ := hinc
    subst hL; subst hy
    have hcan := facets_loop.canonical_stepY _ (facets_loop.canonical_resetX L h)
    have hs := facets_loop.stepY_s L.resetX
    have hf := facets_loop.yield_formulas _ axq bxq ayq byq azq bzq hcan
      (hs.1.trans hsx) (hs.2.1.trans hsy) (hs.2.2.trans hsz)
    exact ⟨hcan, hf.1, hf.2.1, hf.2.2.1, hf.2.2.2.1, hf.2.2.2.2.1,
      hf.2.2.2.2.2.1, hf.2.2.2.2.2.2⟩
  · simp only [Option.some.injEq, Prod.mk.injEq] at hinc
    obtain ⟨hy, hL⟩ := hinc
    subst hL; subst hy
    have hcan := facets_loop.canonical_stepZ _
      (facets_loop.canonical_resetY _ (facets_loop.canonical_resetX L h))
    have hs := facets_loop.stepZ_s L.resetX.resetY
    have hf := facets_loop.yield_formulas _ axq bxq ayq byq azq bzq hcan
      (hs.1.trans hsx) (hs.2.1.trans hsy) (hs.2.2.trans hsz)
    exact ⟨hcan, hf.1, hf.2.1, hf.2.2.1, hf.2.2.2.1, hf.2.2.2.2.1,
      hf.2.2.2.2.2.1, hf.2.2.2.2.2.2⟩

/-- A concrete canonical cursor state: a 2×2×2 grid with box side 1, the
sub-grid row starting at the periodic image `i = −1`, positioned one step
before an x wraparound. -/
def cursorSample : facets_loop :=
  { i := -1, j := 0, k := 0, ip := 1, jp := 0, kp := 0,
    ai := -1, bi := 0, aj := 0, bj := 0, ak := 0, bk := 0,
    aip := 1, ajp := 0,
    apx := -1, apy := 0, apz := 0, aapx := -1, aapy := 0,
    sx := 1, sy := 1, sz := 1, nx := 2, ny := 2, nz := 2, nxy := 4 }

/-- Witness for C9: one inc step of the concrete cursor (an x wraparound
from the periodic image `i = −1` to `i = 0`) satisfies the canonical
formulas of the claim. -/
theorem facets_loop.inc_canonical_witness :
    cursorSample.stepX.ip =
      step_mod cursorSample.stepX.i cursorSample.stepX.nx ∧
    cursorSample.stepX.apx =
      (step_div cursorSample.stepX.i cursorSample.stepX.nx : ℚ) * (1 - 0) := by
  have haxisx : facets_loop.canonicalAxis cursorSample.nx cursorSample.i
      cursorSample.ip cursorSample.apx cursorSample.sx :=
    ⟨-1, by norm_num [cursorSample], by norm_num [cursorSample],
      by norm_num [cursorSample], by norm_num [cursorSample]⟩
  have haxisy : facets_loop.canonicalAxis cursorSample.ny cursorSample.j
      cursorSample.jp cursorSample.apy cursorSample.sy :=
    ⟨0, by norm_num [cursorSample], by norm_num [cursorSample],
      by norm_num [cursorSample], by norm_num [cursorSample]⟩
  have haxisz : facets_loop.canonicalAxis cursorSample.nz cursorSample.k
      cursorSample.kp cursorSample.apz cursorSample.sz :=
    ⟨0, by norm_num [cursorSample], by norm_num [cursorSample],
      by norm_num [cursorSample], by norm_num [cursorSample]⟩
  have haxisa : facets_loop.canonicalAxis cursorSample.nx cursorSample.ai
      cursorSample.aip cursorSample.aapx cursorSample.sx :=
    ⟨-1, by norm_num [cursorSample], by norm_num [cursorSample],
      by norm_num [cursorSample], by norm_num [cursorSample]⟩
  have haxisb : facets_loop.canonicalAxis cursorSample.ny cursorSample.aj
      cursorSample.ajp cursorSample.aapy cursorSample.sy :=
    ⟨0, by norm_num [cursorSample], by norm_num [cursorSample],
      by norm_num [cursorSample], by norm_num [cursorSample]⟩
  have hcan : facets_loop.canonical cursorSample :=
    ⟨by norm_num [cursorSample], by norm_num [cursorSample],
      by norm_num [cursorSample], haxisx, haxisy, haxisz, haxisa, haxisb⟩
  have h := facets_loop.inc_canonical cursorSample cursorSample.stepX
    cursorSample.stepX.yieldOf 0 1 0 1 0 1 hcan rfl
    (by norm_num [cursorSample]) (by norm_num [cursorSample])
    (by norm_num [cursorSample])
  exact ⟨h.2.1, h.2.2.2.2.1⟩

/-! ## The container and its frame (container.hh lines 26–102)

The geometry fields (`ax`…`bz`, `xsp,ysp,zsp`, `nx,ny,nz,nxy,nxyz`,
`xperiodic,yperiodic,zperiodic`) are all declared `const` in the header;
the mutable state is the per-block counters `co`, capacities `mem`,
identifier arrays `id` and position arrays `p`.  The header's `by` field
is written `«by»` because `by` is reserved in Lean.  The query operations
(`compute_cell`, `vcomputeall`, `regioncount`, `dump`) only read the
container, so the frame claim is carried by the mutators `put`, `clear`
and `import`. -/

structure container where
  ax : ℚ
  bx : ℚ
  ay : ℚ
  «by» : ℚ
  az : ℚ
  bz : ℚ
  xsp : ℚ
  ysp : ℚ
  zsp : ℚ
  nx : Int
  ny : Int
  nz : Int
  nxy : Int
  nxyz : Int
  xperiodic : Bool
  yperiodic : Bool
  zperiodic : Bool
  co : List Nat
  mem : List Nat
  id : List (List Int)
  p : List (List ℚ)

/-- The geometric configuration of a container: domain bounds, inverse
block spacings, block counts, periodicity flags. -/
def container.geometry (c : container) :
    (ℚ × ℚ × ℚ × ℚ × ℚ × ℚ) × (ℚ × ℚ × ℚ) ×
      (Int × Int × Int × Int × Int) × (Bool × Bool × Bool) :=
  ((c.ax, c.bx, c.ay, c.«by», c.az, c.bz), (c.xsp, c.ysp, c.zsp),
   (c.nx, c.ny, c.nz, c.nxy, c.nxyz),
   (c.xperiodic, c.yperiodic, c.zperiodic))

/-- Wrapping of one coordinate into the canonical periodic image
(identity on a non-periodic axis). -/
def container.wrapCoord (per : Bool) (lo hi w : ℚ) : ℚ :=
  if per then w - (hi - lo) * ⌊(w - lo) / (hi - lo)⌋ else w

/-- Modelled from the spec: `container::put` (§4.D) — wrap the coordinates
into the domain on periodic axes, reject the seed when out of range on a
non-periodic axis, locate the enclosing block by `⌊(x−ax)·xsp⌋`, and
append identifier and position to that block's arrays. -/
def container.put (c : container) (n : Int) (x y z : ℚ) : container :=
  if c.ax ≤ container.wrapCoord c.xperiodic c.ax c.bx x ∧
     container.wrapCoord c.xperiodic c.ax c.bx x < c.bx ∧
     c.ay ≤ container.wrapCoord c.yperiodic c.ay c.«by» y ∧
     container.wrapCoord c.yperiodic c.ay c.«by» y < c.«by» ∧
     c.az ≤ container.wrapCoord c.zperiodic c.az c.bz z ∧
     container.wrapCoord c.zperiodic c.az c.bz z < c.bz then
    { c with
      co := c.co.set (blockOf c x y z) (c.co.getD (blockOf c x y z) 0 + 1),
      id := c.id.set (blockOf c x y z)
        (c.id.getD (blockOf c x y z) [] ++ [n]),
      p := c.p.set (blockOf c x y z)
        (c.p.getD (blockOf c x y z) [] ++
          [container.wrapCoord c.xperiodic c.ax c.bx x,
           container.wrapCoord c.yperiodic c.ay c.«by» y,
           container.wrapCoord c.zperiodic c.az c.bz z]) }
  else c
where
  /-- The block index `i + nx·j + nxy·k` of the wrapped position. -/
  blockOf (c : container) (x y z : ℚ) : Nat :=
    (⌊(container.wrapCoord c.xperiodic c.ax c.bx x - c.ax) * c.xsp⌋ +
     c.nx * ⌊(container.wrapCoord c.yperiodic c.ay c.«by» y - c.ay) * c.ysp⌋ +
     c.nxy *
       ⌊(container.wrapCoord c.zperiodic c.az c.bz z - c.az) * c.zsp⌋).toNat

/-- Modelled from the spec: `container::clear` — reset every block counter
without freeing capacity. -/
def container.clear (c : container) : container :=
  { c with co := c.co.map (fun _ => 0) }

/-- Modelled from the spec: `container::import` — `put` every parsed
record in order (named `importAll` because `import` is reserved in
Lean). -/
def container.importAll (c : container)
    (l : List (Int × ℚ × ℚ × ℚ)) : container :=
  l.foldl (fun cc r => cc.put r.1 r.2.1 r.2.2.1 r.2.2.2) c

theorem container.put_geometry (c : container) (n : Int) (x y z : ℚ) :
    (c.put n x y z).geometry = c.geometry := by
  unfold container.put
  split_ifs <;> rfl

/-- C10: a container's geometric configuration — the domain bounds, the
inverse block spacings, the block counts and the periodicity flags — is
fixed at construction and left unchanged by every subsequent operation;
`put`, `clear` and `import` change only the per-block arrays and counters,
and the query operations do not write the container at all. -/
theorem container.geometry_frame (c : container) (n : Int) (x y z : ℚ)
    (l : List (Int × ℚ × ℚ × ℚ)) :
    (c.put n x y z).geometry = c.geometry ∧
    c.clear.geometry = c.geometry ∧
    (c.importAll l).geometry = c.geometry := by
  refine ⟨container.put_geometry c n x y z, rfl, ?_⟩
  induction l generalizing c with
  | nil => rfl
  | cons a as ih =>
    show ((c.put a.1 a.2.1 a.2.2.1 a.2.2.2).importAll as).geometry = _
    rw [ih, container.put_geometry]

/-! ## Claim C7: scenario S2 — a single symmetric cut of the box -/

/-- The cell of scenario S2 before the cut: the box `[−1,1]³`. -/
def s2box : voronoicell := voronoicell.init (-1) 1 (-1) 1 (-1) 1

/-- The plane of scenario S2: `plane(1,0,0,1)`, i.e. `x = 0.5`. -/
def s2pl : CutPlane := ⟨1, 0, 0, 1⟩

theorem s2_side0 : voronoicell.side s2box s2pl 0 = Side.inside := by
  norm_num [voronoicell.side, classify, sdist, voronoicell.vertexAt, s2box,
    s2pl, voronoicell.init, tolerance, List.getD]

theorem s2_side1 : voronoicell.side s2box s2pl 1 = Side.outside := by
  norm_num [voronoicell.side, classify, sdist, voronoicell.vertexAt, s2box,
    s2pl, voronoicell.init, tolerance, List.getD]

theorem s2_side2 : voronoicell.side s2box s2pl 2 = Side.inside := by
  norm_num [voronoicell.side, classify, sdist, voronoicell.vertexAt, s2box,
    s2pl, voronoicell.init, tolerance, List.getD]

theorem s2_side3 : voronoicell.side s2box s2pl 3 = Side.outside := by
  norm_num [voronoicell.side, classify, sdist, voronoicell.vertexAt, s2box,
    s2pl, voronoicell.init, tolerance, List.getD]

theorem s2_side4 : voronoicell.side s2box s2pl 4 = Side.inside := by
  norm_num [voronoicell.side, classify, sdist, voronoicell.vertexAt, s2box,
    s2pl, voronoicell.init, tolerance, List.getD]

theorem s2_side5 : voronoicell.side s2box s2pl 5 = Side.outside := by
  norm_num [voronoicell.side, classify, sdist, voronoicell.vertexAt, s2box,
    s2pl, voronoicell.init, tolerance, List.getD]

theorem s2_side6 : voronoicell.side s2box s2pl 6 = Side.inside := by
  norm_num [voronoicell.side, classify, sdist, voronoicell.vertexAt, s2box,
    s2pl, voronoicell.init, tolerance, List.getD]

theorem s2_side7 : voronoicell.side s2box s2pl 7 = Side.outside := by
  norm_num [voronoicell.side, classify, sdist, voronoicell.vertexAt, s2box,
    s2pl, voronoicell.init, tolerance, List.getD]

theorem s2_survivors : voronoicell.survivors s2box s2pl = [0, 2, 4, 6] := by
  have h8 : s2box.pts.length = 8 := rfl
  unfold voronoicell.survivors
  rw [h8]
  simp [List.range_succ, List.filter_cons, s2_side0, s2_side1, s2_side2,
    s2_side3, s2_side4, s2_side5, s2_side6, s2_side7]

theorem s2_pairs : s2box.faces.flatMap voronoicell.cyclicPairs =
    [(0, 2), (2, 3), (3, 1), (1, 0), (4, 5), (5, 7), (7, 6), (6, 4),
     (0, 1), (1, 5), (5, 4), (4, 0), (2, 6), (6, 7), (7, 3), (3, 2),
     (0, 4), (4, 6), (6, 2), (2, 0), (1, 3), (3, 7), (7, 5), (5, 1)] := by
  decide

theorem s2_crossKeys : voronoicell.crossKeys s2box s2pl =
    [(0, 1), (4, 5), (6, 7), (2, 3)] := by
  unfold voronoicell.crossKeys
  rw [s2_pairs]
  simp [List.filterMap_cons, s2_side0, s2_side1, s2_side2, s2_side3,
    s2_side4, s2_side5, s2_side6, s2_side7, List.dedup_cons_of_mem,
    List.dedup_cons_of_not_mem]

theorem s2_newpts : (voronoicell.crossKeys s2box s2pl).map
    (voronoicell.interp s2box s2pl) =
    [(1, -2, -2), (1, -2, 2), (1, 2, 2), (1, 2, -2)] := by
  rw [s2_crossKeys]
  norm_num [voronoicell.interp, sdist, voronoicell.vertexAt, s2box, s2pl,
    voronoicell.init, List.getD]

theorem s2_clipped : s2box.faces.map (voronoicell.clipFace s2box s2pl) =
    [[0, 1, 7, 4], [2, 5, 6, 3], [0, 4, 5, 2], [1, 3, 6, 7],
     [0, 2, 3, 1], []] := by
  have hf : s2box.faces = [[0, 2, 3, 1], [4, 5, 7, 6], [0, 1, 5, 4],
      [2, 6, 7, 3], [0, 4, 6, 2], [1, 3, 7, 5]] := rfl
  rw [hf]
  simp only [List.map_cons, List.map_nil]
  unfold voronoicell.clipFace voronoicell.renumber voronoicell.crossIdx
    voronoicell.isCrossing voronoicell.keyOf
  rw [s2_survivors, s2_crossKeys]
  simp [voronoicell.cyclicPairs, List.rotate, s2_side0, s2_side1, s2_side2,
    s2_side3, s2_side4, s2_side5, s2_side6, s2_side7]
  decide

theorem s2_cutEdges : voronoicell.cutEdges s2box s2pl =
    [(4, 7), (6, 5), (5, 4), (7, 6)] := by
  have hf : s2box.faces = [[0, 2, 3, 1], [4, 5, 7, 6], [0, 1, 5, 4],
      [2, 6, 7, 3], [0, 4, 6, 2], [1, 3, 7, 5]] := rfl
  unfold voronoicell.cutEdges
  rw [hf]
  simp only [List.filterMap_cons, List.filterMap_nil]
  unfold voronoicell.entryOf voronoicell.exitOf voronoicell.renumber
    voronoicell.crossIdx
  simp [voronoicell.cyclicPairs, List.rotate, s2_side0, s2_side1, s2_side2,
    s2_side3, s2_side4, s2_side5, s2_side6, s2_side7, s2_survivors,
    s2_crossKeys]
  decide

theorem s2_newFace : voronoicell.newFace s2box s2pl = [4, 7, 6, 5] := by
  unfold voronoicell.newFace
  rw [s2_cutEdges]
  decide

theorem s2_rewired : (voronoicell.survivors s2box s2pl).map
    (voronoicell.rewireRow s2box s2pl) =
    [[4, 1, 2], [0, 7, 3], [3, 5, 0], [6, 2, 1]] := by
  rw [s2_survivors]
  simp only [List.map_cons, List.map_nil]
  have h0 : voronoicell.nbrHalf s2box 0 = [1, 2, 4] := by decide
  have h2 : voronoicell.nbrHalf s2box 2 = [0, 3, 6] := by decide
  have h4 : voronoicell.nbrHalf s2box 4 = [6, 5, 0] := by decide
  have h6 : voronoicell.nbrHalf s2box 6 = [7, 4, 2] := by decide
  unfold voronoicell.rewireRow voronoicell.renumber voronoicell.crossIdx
  rw [h0, h2, h4, h6]
  simp [List.filterMap_cons, s2_side0, s2_side1, s2_side2, s2_side3,
    s2_side4, s2_side5, s2_side6, s2_side7, s2_survivors, s2_crossKeys]
  decide

theorem s2_contours : (voronoicell.crossKeys s2box s2pl).map
    (voronoicell.contourRow s2box s2pl) =
    [[0, 7, 5], [2, 4, 6], [3, 5, 7], [1, 6, 4]] := by
  rw [s2_crossKeys]
  simp only [List.map_cons, List.map_nil]
  unfold voronoicell.contourRow voronoicell.contourNext voronoicell.contourPrev
  have f10 : voronoicell.faceWithPair s2box (1, 0) = some [0, 2, 3, 1] := by
    decide
  have f01 : voronoicell.faceWithPair s2box (0, 1) = some [0, 1, 5, 4] := by
    decide
  have f54 : voronoicell.faceWithPair s2box (5, 4) = some [0, 1, 5, 4] := by
    decide
  have f45 : voronoicell.faceWithPair s2box (4, 5) = some [4, 5, 7, 6] := by
    decide
  have f76 : voronoicell.faceWithPair s2box (7, 6) = some [4, 5, 7, 6] := by
    decide
  have f67 : voronoicell.faceWithPair s2box (6, 7) = some [2, 6, 7, 3] := by
    decide
  have f32 : voronoicell.faceWithPair s2box (3, 2) = some [2, 6, 7, 3] := by
    decide
  have f23 : voronoicell.faceWithPair s2box (2, 3) = some [0, 2, 3, 1] := by
    decide
  rw [show ((0, 1) : Nat × Nat).2 = 1 from rfl]
  simp only [f10, f01, f54, f45, f76, f67, f32, f23, Option.bind_some]
  unfold voronoicell.exitOf voronoicell.entryOf voronoicell.renumber
    voronoicell.crossIdx
  simp [voronoicell.cyclicPairs, List.rotate, s2_side0, s2_side1, s2_side2,
    s2_side3, s2_side4, s2_side5, s2_side6, s2_side7, s2_survivors,
    s2_crossKeys]
  decide

theorem s2_clipRows : voronoicell.clipRows s2box s2pl =
    [[4, 1, 2], [0, 7, 3], [3, 5, 0], [6, 2, 1],
     [0, 7, 5], [2, 4, 6], [3, 5, 7], [1, 6, 4]] := by
  unfold voronoicell.clipRows
  rw [s2_rewired, s2_contours]
  rfl

theorem s2_plane : voronoicell.plane s2box s2pl =
    (true,
     ⟨[(-2, -2, -2), (-2, 2, -2), (-2, -2, 2), (-2, 2, 2),
       (1, -2, -2), (1, -2, 2), (1, 2, 2), (1, 2, -2)],
      [3, 3, 3, 3, 3, 3, 3, 3],
      [[4, 1, 2, 0, 0, 2], [0, 7, 3, 1, 0, 2], [3, 5, 0, 1, 0, 2],
       [6, 2, 1, 0, 0, 2], [0, 7, 5, 0, 2, 1], [2, 4, 6, 1, 2, 1],
       [3, 5, 7, 0, 2, 1], [1, 6, 4, 1, 2, 1]],
      [[0, 1, 7, 4], [2, 5, 6, 3], [0, 4, 5, 2], [1, 3, 6, 7],
       [0, 2, 3, 1], [4, 7, 6, 5]]⟩) := by
  have h8 : s2box.pts.length = 8 := rfl
  unfold voronoicell.plane
  have hany : ((List.range s2box.pts.length).any fun i =>
      voronoicell.side s2box s2pl i = Side.outside) = true := by
    rw [h8]
    refine List.any_eq_true.mpr ⟨1, by decide, ?_⟩
    simp [s2_side1]
  have hall : ¬ ((List.range s2box.pts.length).all fun i =>
      voronoicell.side s2box s2pl i = Side.outside) = true := by
    rw [h8]
    intro hk
    have := List.all_eq_true.mp hk 0 (by decide)
    rw [s2_side0] at this
    exact absurd (of_decide_eq_true this) (by decide)
  rw [if_pos (by simpa using hany), if_neg (by simpa using hall)]
  unfold voronoicell.clip
  rw [s2_survivors, s2_newpts, s2_clipped, s2_newFace, s2_clipRows]
  norm_num [voronoicell.vertexAt, s2box, voronoicell.init, List.getD,
    List.filter_cons, voronoicell.mk.injEq]
  decide

/-- C7: scenario S2 — after `init` to the box `[−1,1]³` and the single
call `plane(1,0,0,1)` (the plane `x = 0.5`), `volume()` returns 6 and the
face-size histogram maps 4 to 6: the cell is the box
`[−1,0.5]×[−1,1]×[−1,1]`. -/
theorem scenario_s2 :
    voronoicell.volume
      (voronoicell.plane (voronoicell.init (-1) 1 (-1) 1 (-1) 1)
        ⟨1, 0, 0, 1⟩).2 = 6 ∧
    voronoicell.facet_statistics
      (voronoicell.plane (voronoicell.init (-1) 1 (-1) 1 (-1) 1)
        ⟨1, 0, 0, 1⟩).2 4 = 6 := by
  have hp : voronoicell.plane (voronoicell.init (-1) 1 (-1) 1 (-1) 1)
      ⟨1, 0, 0, 1⟩ = voronoicell.plane s2box s2pl := rfl
  rw [hp, s2_plane]
  constructor
  · norm_num [voronoicell.volume, voronoicell.faceFlux,
      voronoicell.faceNormalSum, voronoicell.cyclicPairs, List.rotate,
      voronoicell.vertexAt, List.getD, dot3, cross3, add3]
  · decide

/-! ## Claim C2: the half-edge pairing invariant of the stored table

The invariant of spec §3 ("must hold on entry and return of every public
operation"): the stored table is paired, duplicate-free, and coherent with
the face cycles.  `plane` re-establishes it: the two branches that do not
rewire return the cell (or the empty cell) unchanged, and the clip branch
rebuilds a paired table from the rewired survivor rows and the fresh
contour records — which is a genuine property of the rewiring: a slot of a
mutated row is only matched if the vertex it names was rewired
consistently on its own side. -/

namespace voronoicell

/-- The neighbour halves of all stored edge records. -/
def nbrRows (c : voronoicell) : List (List Nat) :=
  (List.range c.pts.length).map (nbrHalf c)

/-- Rows contain no duplicate neighbour (spec invariant (3)). -/
def rowsNodup (R : List (List Nat)) : Prop :=
  ∀ v < R.length, (R.getD v []).Nodup

/-- Every stored half-edge has its mate: the neighbour relation of the
rows is symmetric and in range (the membership part of spec
invariant (1)). -/
def rowsSym (R : List (List Nat)) : Prop :=
  ∀ v < R.length, ∀ j ∈ R.getD v [], j < R.length ∧ v ∈ R.getD j []

/-- The cell's well-formedness (spec §3 invariants (1)–(4) as the model
uses them): the stored `nu`/`ed` agree with the neighbour halves and
their back-indices; rows are duplicate-free and symmetric; faces mention
only live vertices; the stored adjacency coincides with face adjacency
(invariant (2)); each directed pair lies on one face, and its reverse on
another (the polyhedron is a closed oriented surface, invariant (4)). -/
def wellFormed (c : voronoicell) : Prop :=
  (c.nu = (nbrRows c).map List.length ∧ c.ed = withBacks (nbrRows c)) ∧
  rowsNodup (nbrRows c) ∧ rowsSym (nbrRows c) ∧
  (∀ f ∈ c.faces, ∀ x ∈ f, x < c.pts.length) ∧
  (∀ v < c.pts.length, ∀ w ∈ nbrHalf c v,
    ∃ f ∈ c.faces, adjacentInFace f v w) ∧
  (∀ f ∈ c.faces, ∀ q ∈ cyclicPairs f,
    q.2 ∈ nbrHalf c q.1 ∧ q.1 ∈ nbrHalf c q.2) ∧
  (∀ f ∈ c.faces, ∀ g ∈ c.faces, ∀ q ∈ cyclicPairs f,
    q ∈ cyclicPairs g → f = g) ∧
  (∀ f ∈ c.faces, ∀ q ∈ cyclicPairs f,
    ∃ g ∈ c.faces, (q.2, q.1) ∈ cyclicPairs g)

/-- The cut is in general position for this cell (spec §8 property 5 makes
the same restriction): no vertex is marginal, and each face cycle crosses
the plane in at most one arc (a consequence of convexity, spec
invariant (4)). -/
def genericCut (c : voronoicell) (pl : CutPlane) : Prop :=
  (∀ i < c.pts.length, side c pl i ≠ Side.on) ∧
  (∀ f ∈ c.faces,
    ((cyclicPairs f).filter (fun q => decide (side c pl q.1 ≠ Side.outside ∧
      side c pl q.2 = Side.outside))).length ≤ 1 ∧
    ((cyclicPairs f).filter (fun q => decide (side c pl q.1 = Side.outside ∧
      side c pl q.2 ≠ Side.outside))).length ≤ 1)

end voronoicell

/-- A membership-aware no-duplicates lemma for `filterMap`. -/
theorem nodup_filterMap_mem {α β : Type} [DecidableEq β] (l : List α)
    (g : α → Option β) (hnd : l.Nodup)
    (hinj : ∀ a ∈ l, ∀ a2 ∈ l, ∀ b, g a = some b → g a2 = some b → a = a2) :
    (l.filterMap g).Nodup := by
  induction l with
  | nil => exact List.nodup_nil
  | cons x xs ih =>
    have hx := List.nodup_cons.mp hnd
    have ihr := ih hx.2 (fun a ha a2 ha2 b h1 h2 =>
      hinj a (by simp [ha]) a2 (by simp [ha2]) b h1 h2)
    cases hgx : g x with
    | none => simpa [List.filterMap_cons, hgx] using ihr
    | some b =>
        rw [List.filterMap_cons, hgx]
        refine List.nodup_cons.mpr ⟨?_, ihr⟩
        intro hb
        obtain ⟨a, ha, hga⟩ := List.mem_filterMap.mp hb
        have : x = a := hinj x (by simp) a (by simp [ha]) b hgx hga
        rw [this] at hx
        exact hx.1 ha

/-- The head of a `filterMap` is determined when every hit agrees. -/
theorem head_filterMap_eq {α β : Type} (l : List α) (g : α → Option β)
    (x : β) (a : α) (ha : a ∈ l) (hx : g a = some x)
    (huniq : ∀ b ∈ l, ∀ y, g b = some y → y = x) :
    (l.filterMap g).head? = some x := by
  induction l with
  | nil => cases ha
  | cons z zs ih =>
    cases hgz : g z with
    | some y =>
        rw [List.filterMap_cons, hgz]
        simp [huniq z (by simp) y hgz]
    | none =>
        rw [List.filterMap_cons, hgz]
        rcases List.mem_cons.mp ha with rfl | ha2
        · rw [hgz] at hx; cases hx
        · exact ih ha2 (fun b hb y hy => huniq b (by simp [hb]) y hy)

/-- Two members both satisfying a predicate whose filter has at most one
element are equal. -/
theorem eq_of_filter_length_le_one {α : Type} (l : List α) (pb : α → Bool)
    (hlen : (l.filter pb).length ≤ 1) (a : α) (ha : a ∈ l) (hpa : pb a)
    (b : α) (hb : b ∈ l) (hpb : pb b) : a = b := by
  have hma : a ∈ l.filter pb := List.mem_filter.mpr ⟨ha, hpa⟩
  have hmb : b ∈ l.filter pb := List.mem_filter.mpr ⟨hb, hpb⟩
  rcases hf : l.filter pb with _ | ⟨x, xs⟩
  · rw [hf] at hma; cases hma
  · rw [hf] at hma hmb hlen
    have hxs : xs = [] := by
      cases xs with
      | nil => rfl
      | cons y ys => simp at hlen
    subst hxs
    rw [List.mem_singleton] at hma hmb
    rw [hma, hmb]

theorem withBacks_getD (R : List (List Nat)) (v : Nat) (hv : v < R.length) :
    (withBacks R).getD v [] = R.getD v [] ++ backsOf R v := by
  unfold withBacks
  have hv2 : v < ((List.range R.length).map
      (fun v => R.getD v [] ++ backsOf R v)).length := by simpa using hv
  rw [List.getD_eq_getElem _ _ hv2, List.getElem_map, List.getElem_range]

namespace voronoicell

theorem nbrRows_length (c : voronoicell) :
    (nbrRows c).length = c.pts.length := by
  simp [nbrRows]

theorem nbrRows_getD (c : voronoicell) (v : Nat) (hv : v < c.pts.length) :
    (nbrRows c).getD v [] = nbrHalf c v := by
  unfold nbrRows
  have hv2 : v < ((List.range c.pts.length).map (nbrHalf c)).length := by
    simpa using hv
  rw [List.getD_eq_getElem _ _ hv2, List.getElem_map, List.getElem_range]

/-- Pairing of a stored table whose rows are duplicate-free and symmetric
and whose back-indices were attached by `withBacks`. -/
theorem withBacks_pairing (R : List (List Nat)) (c : voronoicell)
    (hnu : c.nu = R.map List.length) (hed : c.ed = withBacks R)
    (hp : c.pts.length = R.length)
    (hnd : rowsNodup R) (hsym : rowsSym R)
    (i m : Nat) (hi : i < c.pts.length) (hm : m < nuval c i) :
    edval c (edval c i m) (edval c i (nuval c i + m)) = i ∧
    edval c (edval c i m)
      (nuval c (edval c i m) + edval c i (nuval c i + m)) = m := by
  have hi' : i < R.length := hp ▸ hi
  have hnuv : ∀ v, v < R.length → nuval c v = (R.getD v []).length := by
    intro v hv
    unfold nuval
    rw [hnu]
    have hv2 : v < (R.map List.length).length := by simpa using hv
    rw [List.getD_eq_getElem _ _ hv2, List.getElem_map,
      List.getD_eq_getElem _ _ hv]
  have hedv : ∀ v, v < R.length →
      ∀ t, edval c v t = (R.getD v [] ++ backsOf R v).getD t 0 := by
    intro v hv t
    unfold edval
    rw [hed, withBacks_getD R v hv]
  have hm' : m < (R.getD i []).length := by rw [← hnuv i hi']; exact hm
  have hed1 : edval c i m = (R.getD i [])[m] := by
    rw [hedv i hi' m, List.getD_append _ _ _ _ hm',
      List.getD_eq_getElem _ _ hm']
  have hjmem : (R.getD i [])[m] ∈ R.getD i [] := List.getElem_mem hm'
  have hjsym := hsym i hi' _ hjmem
  have hjlt : (R.getD i [])[m] < R.length := hjsym.1
  have himem : i ∈ R.getD ((R.getD i [])[m]) [] := hjsym.2
  have hblen : idxOf i (R.getD ((R.getD i [])[m]) []) <
      (R.getD ((R.getD i [])[m]) []).length := by
    unfold idxOf
    exact List.indexOf_lt_length.mpr himem
  have hed2 : edval c i (nuval c i + m) =
      idxOf i (R.getD ((R.getD i [])[m]) []) := by
    rw [hedv i hi' _, List.getD_append_right _ _ _ _
      (by rw [hnuv i hi']; omega)]
    rw [hnuv i hi']
    have hmm : (R.getD i []).length + m - (R.getD i []).length = m := by omega
    rw [hmm]
    unfold backsOf
    have hmap : m < ((R.getD i []).map
        (fun j => idxOf i (R.getD j []))).length := by simpa using hm'
    rw [List.getD_eq_getElem _ _ hmap, List.getElem_map]
  have hed3 : edval c ((R.getD i [])[m])
      (idxOf i (R.getD ((R.getD i [])[m]) [])) = i := by
    rw [hedv _ hjlt _, List.getD_append _ _ _ _ hblen,
      List.getD_eq_getElem _ _ hblen]
    unfold idxOf
    unfold idxOf at hblen
    exact List.getElem_indexOf hblen
  refine ⟨by rw [hed1, hed2, hed3], ?_⟩
  rw [hed1, hed2, hedv _ hjlt _]
  rw [List.getD_append_right _ _ _ _ (by rw [hnuv _ hjlt]; omega)]
  rw [hnuv _ hjlt]
  have hbb : (R.getD ((R.getD i [])[m]) []).length +
      idxOf i (R.getD ((R.getD i [])[m]) []) -
      (R.getD ((R.getD i [])[m]) []).length =
      idxOf i (R.getD ((R.getD i [])[m]) []) := by omega
  rw [hbb]
  unfold backsOf
  have hmap : idxOf i (R.getD ((R.getD i [])[m]) []) <
      ((R.getD ((R.getD i [])[m]) []).map
        (fun j => idxOf ((R.getD i [])[m]) (R.getD j []))).length := by
    simpa using hblen
  rw [List.getD_eq_getElem _ _ hmap, List.getElem_map]
  have hgi : (R.getD ((R.getD i [])[m]) [])[idxOf i
      (R.getD ((R.getD i [])[m]) [])] = i := by
    unfold idxOf
    unfold idxOf at hblen
    exact List.getElem_indexOf hblen
  rw [hgi]
  unfold idxOf
  have := List.get_indexOf (hnd i hi') ⟨m, hm'⟩
  simpa [List.get_eq_getElem] using this

end voronoicell

namespace voronoicell

theorem survivors_nodup (c : voronoicell) (pl : CutPlane) :
    (survivors c pl).Nodup := (List.nodup_range _).filter _

theorem mem_survivors (c : voronoicell) (pl : CutPlane) (u : Nat) :
    u ∈ survivors c pl ↔ u < c.pts.length ∧ side c pl u ≠ Side.outside := by
  simp [survivors, List.mem_filter, List.mem_range]

theorem survivors_inside (c : voronoicell) (pl : CutPlane)
    (hnm : ∀ i < c.pts.length, side c pl i ≠ Side.on) (u : Nat)
    (hu : u ∈ survivors c pl) : side c pl u = Side.inside := by
  obtain ⟨hlt, hno⟩ := (mem_survivors c pl u).mp hu
  have hon := hnm u hlt
  rcases hh : side c pl u with _ | _ | _
  · rfl
  · exact absurd hh hon
  · exact absurd hh hno

theorem renumber_lt (c : voronoicell) (pl : CutPlane) (u : Nat)
    (hu : u ∈ survivors c pl) :
    renumber c pl u < (survivors c pl).length := by
  unfold renumber idxOf
  exact List.indexOf_lt_length.mpr hu

theorem survivors_get_renumber (c : voronoicell) (pl : CutPlane) (u : Nat)
    (hu : u ∈ survivors c pl) :
    (survivors c pl).get ⟨renumber c pl u, renumber_lt c pl u hu⟩ = u :=
  List.indexOf_get _

theorem renumber_get (c : voronoicell) (pl : CutPlane) (v : Nat)
    (hv : v < (survivors c pl).length) :
    renumber c pl ((survivors c pl).get ⟨v, hv⟩) = v := by
  unfold renumber idxOf
  exact List.get_indexOf (survivors_nodup c pl) _

theorem renumber_inj (c : voronoicell) (pl : CutPlane) (u u2 : Nat)
    (hu : u ∈ survivors c pl) (hu2 : u2 ∈ survivors c pl)
    (h : renumber c pl u = renumber c pl u2) : u = u2 := by
  unfold renumber idxOf at h
  exact (List.indexOf_inj hu hu2).mp h

theorem crossKeys_nodup (c : voronoicell) (pl : CutPlane) :
    (crossKeys c pl).Nodup := List.nodup_dedup _

theorem cyclicPairs_mem (f : List Nat) (q : Nat × Nat)
    (h : q ∈ cyclicPairs f) : q.1 ∈ f ∧ q.2 ∈ f := by
  obtain ⟨q1, q2⟩ := q
  have hz := List.of_mem_zip h
  exact ⟨hz.1, List.mem_rotate.mp hz.2⟩

theorem mem_crossKeys_io (c : voronoicell) (pl : CutPlane) (f : List Nat)
    (hf : f ∈ c.faces) (q : Nat × Nat) (hq : q ∈ cyclicPairs f)
    (h1 : side c pl q.1 = Side.inside) (h2 : side c pl q.2 = Side.outside) :
    (q.1, q.2) ∈ crossKeys c pl := by
  unfold crossKeys
  rw [List.mem_dedup, List.mem_filterMap]
  refine ⟨q, List.mem_flatMap.mpr ⟨f, hf, hq⟩, ?_⟩
  rw [if_pos ⟨h1, h2⟩]

theorem mem_crossKeys_oi (c : voronoicell) (pl : CutPlane) (f : List Nat)
    (hf : f ∈ c.faces) (q : Nat × Nat) (hq : q ∈ cyclicPairs f)
    (h1 : side c pl q.1 = Side.outside) (h2 : side c pl q.2 = Side.inside) :
    (q.2, q.1) ∈ crossKeys c pl := by
  unfold crossKeys
  rw [List.mem_dedup, List.mem_filterMap]
  refine ⟨q, List.mem_flatMap.mpr ⟨f, hf, hq⟩, ?_⟩
  rw [if_neg (by rw [h1]; rintro ⟨hc, -⟩; cases hc), if_pos ⟨h1, h2⟩]

theorem crossKeys_face (c : voronoicell) (pl : CutPlane) (k : Nat × Nat)
    (hk : k ∈ crossKeys c pl) :
    ∃ f ∈ c.faces, (k.1, k.2) ∈ cyclicPairs f ∨ (k.2, k.1) ∈ cyclicPairs f := by
  unfold crossKeys at hk
  rw [List.mem_dedup, List.mem_filterMap] at hk
  obtain ⟨q, hq, heq⟩ := hk
  obtain ⟨f, hf, hqf⟩ := List.mem_flatMap.mp hq
  split_ifs at heq with h1 h2
  · cases heq; exact ⟨f, hf, Or.inl hqf⟩
  · cases heq; exact ⟨f, hf, Or.inr hqf⟩

theorem crossKeys_bounds (c : voronoicell) (pl : CutPlane)
    (hfv : ∀ f ∈ c.faces, ∀ x ∈ f, x < c.pts.length) (k : Nat × Nat)
    (hk : k ∈ crossKeys c pl) :
    k.1 < c.pts.length ∧ k.2 < c.pts.length := by
  obtain ⟨f, hf, hor⟩ := crossKeys_face c pl k hk
  rcases hor with hq | hq
  · have hb := cyclicPairs_mem f _ hq
    exact ⟨hfv f hf _ hb.1, hfv f hf _ hb.2⟩
  · have hb := cyclicPairs_mem f _ hq
    exact ⟨hfv f hf _ hb.2, hfv f hf _ hb.1⟩

theorem crossIdx_ge (c : voronoicell) (pl : CutPlane) (k : Nat × Nat) :
    (survivors c pl).length ≤ crossIdx c pl k := Nat.le_add_right _ _

theorem crossIdx_lt (c : voronoicell) (pl : CutPlane) (k : Nat × Nat)
    (hk : k ∈ crossKeys c pl) :
    crossIdx c pl k < (survivors c pl).length + (crossKeys c pl).length := by
  unfold crossIdx idxOf
  exact Nat.add_lt_add_left (List.indexOf_lt_length.mpr hk) _

theorem crossIdx_inj (c : voronoicell) (pl : CutPlane) (k k2 : Nat × Nat)
    (hk : k ∈ crossKeys c pl) (hk2 : k2 ∈ crossKeys c pl)
    (h : crossIdx c pl k = crossIdx c pl k2) : k = k2 := by
  unfold crossIdx idxOf at h
  exact (List.indexOf_inj hk hk2).mp (Nat.add_left_cancel h)

theorem crossIdx_indexOf_lt (c : voronoicell) (pl : CutPlane)
    (k : Nat × Nat) (hk : k ∈ crossKeys c pl) :
    crossIdx c pl k - (survivors c pl).length < (crossKeys c pl).length := by
  have := List.indexOf_lt_length.mpr hk
  unfold crossIdx idxOf
  omega

theorem crossKeys_get_crossIdx (c : voronoicell) (pl : CutPlane)
    (k : Nat × Nat) (hk : k ∈ crossKeys c pl) :
    (crossKeys c pl).get
      ⟨crossIdx c pl k - (survivors c pl).length,
        crossIdx_indexOf_lt c pl k hk⟩ = k := by
  have hx : crossIdx c pl k - (survivors c pl).length =
      idxOf k (crossKeys c pl) := by unfold crossIdx; omega
  have hlt : idxOf k (crossKeys c pl) < (crossKeys c pl).length := by
    unfold idxOf
    exact List.indexOf_lt_length.mpr hk
  simp only [List.get_eq_getElem, hx]
  unfold idxOf
  unfold idxOf at hlt
  exact List.getElem_indexOf hlt

theorem crossIdx_get (c : voronoicell) (pl : CutPlane) (t : Nat)
    (ht : t < (crossKeys c pl).length) :
    crossIdx c pl ((crossKeys c pl).get ⟨t, ht⟩) =
      (survivors c pl).length + t := by
  unfold crossIdx idxOf
  rw [List.get_indexOf (crossKeys_nodup c pl)]

end voronoicell

namespace voronoicell

theorem nbrHalf_nodup (c : voronoicell) (hnd : rowsNodup (nbrRows c))
    (v : Nat) (hv : v < c.pts.length) : (nbrHalf c v).Nodup := by
  have h := hnd v (by rw [nbrRows_length]; exact hv)
  rwa [nbrRows_getD c v hv] at h

theorem nbrHalf_sym (c : voronoicell) (hsym : rowsSym (nbrRows c))
    (v : Nat) (hv : v < c.pts.length) (w : Nat) (hw : w ∈ nbrHalf c v) :
    w < c.pts.length ∧ v ∈ nbrHalf c w := by
  have h := hsym v (by rw [nbrRows_length]; exact hv) w
    (by rwa [nbrRows_getD c v hv])
  obtain ⟨h1, h2⟩ := h
  rw [nbrRows_length] at h1
  rw [nbrRows_getD c w h1] at h2
  exact ⟨h1, h2⟩

theorem mem_rewireRow (c : voronoicell) (pl : CutPlane) (u j : Nat) :
    j ∈ rewireRow c pl u ↔ ∃ w ∈ nbrHalf c u,
      (side c pl w ≠ Side.outside ∧ j = renumber c pl w) ∨
      (side c pl w = Side.outside ∧ side c pl u = Side.inside ∧
        j = crossIdx c pl (u, w)) := by
  unfold rewireRow
  rw [List.mem_filterMap]
  constructor
  · rintro ⟨w, hw, hj⟩
    refine ⟨w, hw, ?_⟩
    split_ifs at hj with h1 h2
    · simp only [Option.some.injEq] at hj
      exact Or.inl ⟨h1, hj.symm⟩
    · simp only [Option.some.injEq] at hj
      exact Or.inr ⟨not_not.mp h1, h2, hj.symm⟩
  · rintro ⟨w, hw, hor⟩
    refine ⟨w, hw, ?_⟩
    rcases hor with ⟨h1, rfl⟩ | ⟨h1, h2, rfl⟩
    · rw [if_pos h1]
    · rw [if_neg (by rw [h1]; exact fun hc => hc rfl), if_pos h2]

theorem mem_contourRow (c : voronoicell) (pl : CutPlane) (k : Nat × Nat)
    (j : Nat) :
    j ∈ contourRow c pl k ↔
      j = renumber c pl k.1 ∨ contourNext c pl k = some j ∨
      contourPrev c pl k = some j := by
  unfold contourRow
  rw [List.mem_dedup]
  simp [Option.mem_toList, Option.mem_def, eq_comm]

theorem clipRows_length (c : voronoicell) (pl : CutPlane) :
    (clipRows c pl).length =
      (survivors c pl).length + (crossKeys c pl).length := by
  simp [clipRows]

theorem clipRows_getD_lt (c : voronoicell) (pl : CutPlane) (v : Nat)
    (hv : v < (survivors c pl).length) :
    (clipRows c pl).getD v [] =
      rewireRow c pl ((survivors c pl).get ⟨v, hv⟩) := by
  unfold clipRows
  rw [List.getD_append _ _ _ _ (by simpa using hv)]
  have hv2 : v < ((survivors c pl).map (rewireRow c pl)).length := by
    simpa using hv
  rw [List.getD_eq_getElem _ _ hv2, List.getElem_map]
  simp [List.get_eq_getElem]

theorem clipRows_getD_ge (c : voronoicell) (pl : CutPlane) (t : Nat)
    (ht : t < (crossKeys c pl).length) :
    (clipRows c pl).getD ((survivors c pl).length + t) [] =
      contourRow c pl ((crossKeys c pl).get ⟨t, ht⟩) := by
  unfold clipRows
  rw [List.getD_append_right _ _ _ _ (by simp)]
  have hidx : (survivors c pl).length + t -
      ((survivors c pl).map (rewireRow c pl)).length = t := by simp
  rw [hidx]
  have ht2 : t < ((crossKeys c pl).map (contourRow c pl)).length := by
    simpa using ht
  rw [List.getD_eq_getElem _ _ ht2, List.getElem_map]
  simp [List.get_eq_getElem]

theorem side_inside_of_kept (c : voronoicell) (pl : CutPlane)
    (hnm : ∀ i < c.pts.length, side c pl i ≠ Side.on) (v : Nat)
    (hv : v < c.pts.length) (h : side c pl v ≠ Side.outside) :
    side c pl v = Side.inside := by
  have hon := hnm v hv
  rcases hh : side c pl v with _ | _ | _
  · rfl
  · exact absurd hh hon
  · exact absurd hh h

theorem exitOf_eq (c : voronoicell) (pl : CutPlane) (f : List Nat)
    (hgap : ((cyclicPairs f).filter (fun q =>
      decide (side c pl q.1 ≠ Side.outside ∧
        side c pl q.2 = Side.outside))).length ≤ 1)
    (q : Nat × Nat) (hq : q ∈ cyclicPairs f)
    (h1 : side c pl q.1 = Side.inside) (h2 : side c pl q.2 = Side.outside) :
    exitOf c pl f = some (crossIdx c pl (q.1, q.2)) := by
  have hne : side c pl q.1 ≠ Side.outside := by
    rw [h1]; exact fun hc => Side.noConfusion hc
  unfold exitOf
  apply head_filterMap_eq _ _ _ q hq
  · rw [if_pos ⟨hne, h2⟩, if_pos h1]
  · intro b hb y hy
    split_ifs at hy with hcb hin
    · have hbq : b = q := by
        refine eq_of_filter_length_le_one _ _ hgap b hb ?_ q hq ?_
        · exact decide_eq_true hcb
        · exact decide_eq_true ⟨hne, h2⟩
      subst hbq
      simp only [Option.some.injEq] at hy
      exact hy.symm
    · have hbq : b = q := by
        refine eq_of_filter_length_le_one _ _ hgap b hb ?_ q hq ?_
        · exact decide_eq_true hcb
        · exact decide_eq_true ⟨hne, h2⟩
      subst hbq
      exact absurd h1 hin

theorem entryOf_eq (c : voronoicell) (pl : CutPlane) (f : List Nat)
    (hgap : ((cyclicPairs f).filter (fun q =>
      decide (side c pl q.1 = Side.outside ∧
        side c pl q.2 ≠ Side.outside))).length ≤ 1)
    (q : Nat × Nat) (hq : q ∈ cyclicPairs f)
    (h1 : side c pl q.1 = Side.outside) (h2 : side c pl q.2 = Side.inside) :
    entryOf c pl f = some (crossIdx c pl (q.2, q.1)) := by
  have hne : side c pl q.2 ≠ Side.outside := by
    rw [h2]; exact fun hc => Side.noConfusion hc
  unfold entryOf
  apply head_filterMap_eq _ _ _ q hq
  · rw [if_pos ⟨h1, hne⟩, if_pos h2]
  · intro b hb y hy
    split_ifs at hy with hcb hin
    · have hbq : b = q := by
        refine eq_of_filter_length_le_one _ _ hgap b hb ?_ q hq ?_
        · exact decide_eq_true hcb
        · exact decide_eq_true ⟨h1, hne⟩
      subst hbq
      simp only [Option.some.injEq] at hy
      exact hy.symm
    · have hbq : b = q := by
        refine eq_of_filter_length_le_one _ _ hgap b hb ?_ q hq ?_
        · exact decide_eq_true hcb
        · exact decide_eq_true ⟨h1, hne⟩
      subst hbq
      exact absurd h2 hin

theorem exitOf_some_spec (c : voronoicell) (pl : CutPlane) (f : List Nat)
    (hf : f ∈ c.faces)
    (hfv : ∀ g ∈ c.faces, ∀ x ∈ g, x < c.pts.length)
    (hnm : ∀ i < c.pts.length, side c pl i ≠ Side.on)
    (j : Nat) (h : exitOf c pl f = some j) :
    ∃ q ∈ cyclicPairs f, side c pl q.1 = Side.inside ∧
      side c pl q.2 = Side.outside ∧ j = crossIdx c pl (q.1, q.2) := by
  unfold exitOf at h
  have hmem := List.mem_of_mem_head? (by rw [h]; exact rfl)
  rw [List.mem_filterMap] at hmem
  obtain ⟨q, hq, hjq⟩ := hmem
  split_ifs at hjq with hcond hin
  · simp only [Option.some.injEq] at hjq
    exact ⟨q, hq, hin, hcond.2, hjq.symm⟩
  · have hq1lt : q.1 < c.pts.length := hfv f hf _ (cyclicPairs_mem f q hq).1
    exact absurd (side_inside_of_kept c pl hnm q.1 hq1lt hcond.1) hin

theorem entryOf_some_spec (c : voronoicell) (pl : CutPlane) (f : List Nat)
    (hf : f ∈ c.faces)
    (hfv : ∀ g ∈ c.faces, ∀ x ∈ g, x < c.pts.length)
    (hnm : ∀ i < c.pts.length, side c pl i ≠ Side.on)
    (j : Nat) (h : entryOf c pl f = some j) :
    ∃ q ∈ cyclicPairs f, side c pl q.1 = Side.outside ∧
      side c pl q.2 = Side.inside ∧ j = crossIdx c pl (q.2, q.1) := by
  unfold entryOf at h
  have hmem := List.mem_of_mem_head? (by rw [h]; exact rfl)
  rw [List.mem_filterMap] at hmem
  obtain ⟨q, hq, hjq⟩ := hmem
  split_ifs at hjq with hcond hin
  · simp only [Option.some.injEq] at hjq
    exact ⟨q, hq, hcond.1, hin, hjq.symm⟩
  · have hq2lt : q.2 < c.pts.length := hfv f hf _ (cyclicPairs_mem f q hq).2
    exact absurd (side_inside_of_kept c pl hnm q.2 hq2lt hcond.2) hin

theorem faceWithPair_eq (c : voronoicell)
    (hpu : ∀ f ∈ c.faces, ∀ g ∈ c.faces, ∀ q ∈ cyclicPairs f,
      q ∈ cyclicPairs g → f = g)
    (f : List Nat) (hf : f ∈ c.faces) (q : Nat × Nat)
    (hq : q ∈ cyclicPairs f) : faceWithPair c q = some f := by
  unfold faceWithPair
  cases hfind : c.faces.find? (fun g => decide (q ∈ cyclicPairs g)) with
  | none =>
      rw [List.find?_eq_none] at hfind
      exact absurd (decide_eq_true hq) (hfind f hf)
  | some g =>
      have hg1 : g ∈ c.faces := List.mem_of_find?_eq_some hfind
      have hg2 : q ∈ cyclicPairs g := by
        have hh := List.find?_some hfind
        simpa using hh
      rw [hpu g hg1 f hf q hg2 hq]

end voronoicell

namespace voronoicell

theorem survivor_of_nbr (c : voronoicell) (pl : CutPlane)
    (hsym : rowsSym (nbrRows c)) (u : Nat) (hu : u < c.pts.length)
    (w : Nat) (hw : w ∈ nbrHalf c u) (hwo : side c pl w ≠ Side.outside) :
    w ∈ survivors c pl :=
  (mem_survivors c pl w).mpr ⟨(nbrHalf_sym c hsym u hu w hw).1, hwo⟩

theorem nbr_crossKey (c : voronoicell) (pl : CutPlane)
    (hco1 : ∀ v < c.pts.length, ∀ w ∈ nbrHalf c v,
      ∃ f ∈ c.faces, adjacentInFace f v w)
    (u : Nat) (hu : u < c.pts.length) (w : Nat) (hw : w ∈ nbrHalf c u)
    (huo : side c pl u = Side.inside) (hwo : side c pl w = Side.outside) :
    (u, w) ∈ crossKeys c pl := by
  obtain ⟨f, hf, hadj⟩ := hco1 u hu w hw
  obtain ⟨⟨q1, q2⟩, hq, hc⟩ := hadj
  rcases hc with ⟨h1, h2⟩ | ⟨h1, h2⟩
  · rw [← h1, ← h2]
    exact mem_crossKeys_io c pl f hf (q1, q2) hq
      (by rw [h1]; exact huo) (by rw [h2]; exact hwo)
  · rw [← h2, ← h1]
    exact mem_crossKeys_oi c pl f hf (q1, q2) hq
      (by rw [h1]; exact hwo) (by rw [h2]; exact huo)

theorem key_nbr (c : voronoicell) (pl : CutPlane)
    (hco2 : ∀ f ∈ c.faces, ∀ q ∈ cyclicPairs f,
      q.2 ∈ nbrHalf c q.1 ∧ q.1 ∈ nbrHalf c q.2)
    (k : Nat × Nat) (hk : k ∈ crossKeys c pl) :
    k.2 ∈ nbrHalf c k.1 ∧ k.1 ∈ nbrHalf c k.2 := by
  obtain ⟨f, hf, hor⟩ := crossKeys_face c pl k hk
  rcases hor with hq | hq
  · exact hco2 f hf _ hq
  · exact ⟨(hco2 f hf _ hq).2, (hco2 f hf _ hq).1⟩

theorem contourNext_closes (c : voronoicell) (pl : CutPlane)
    (hfv : ∀ g ∈ c.faces, ∀ x ∈ g, x < c.pts.length)
    (hnm : ∀ i < c.pts.length, side c pl i ≠ Side.on)
    (hgap : ∀ f ∈ c.faces,
      ((cyclicPairs f).filter (fun q => decide (side c pl q.1 ≠ Side.outside ∧
        side c pl q.2 = Side.outside))).length ≤ 1 ∧
      ((cyclicPairs f).filter (fun q => decide (side c pl q.1 = Side.outside ∧
        side c pl q.2 ≠ Side.outside))).length ≤ 1)
    (hpu : ∀ f ∈ c.faces, ∀ g ∈ c.faces, ∀ q ∈ cyclicPairs f,
      q ∈ cyclicPairs g → f = g)
    (k : Nat × Nat) (hk : k ∈ crossKeys c pl) (j : Nat)
    (h : contourNext c pl k = some j) :
    ∃ k2 ∈ crossKeys c pl, j = crossIdx c pl k2 ∧
      contourPrev c pl k2 = some (crossIdx c pl k) := by
  unfold contourNext at h
  cases hfp : faceWithPair c (k.2, k.1) with
  | none => rw [hfp] at h; cases h
  | some f2 =>
      rw [hfp] at h
      have h2 : exitOf c pl f2 = some j := h
      have hf2 : f2 ∈ c.faces := by
        unfold faceWithPair at hfp
        exact List.mem_of_find?_eq_some hfp
      obtain ⟨q, hq, hq1, hq2, hj⟩ := exitOf_some_spec c pl f2 hf2 hfv hnm j h2
      have hk2 : (q.1, q.2) ∈ crossKeys c pl :=
        mem_crossKeys_io c pl f2 hf2 q hq hq1 hq2
      refine ⟨(q.1, q.2), hk2, hj, ?_⟩
      have hq21 : (k.2, k.1) ∈ cyclicPairs f2 := by
        unfold faceWithPair at hfp
        have hh := List.find?_some hfp
        simpa using hh
      have hsides := crossKeys_sides c pl k hk
      unfold contourPrev
      rw [show faceWithPair c ((q.1, q.2).1, (q.1, q.2).2) = some f2 from
        faceWithPair_eq c hpu f2 hf2 q hq]
      have hent := entryOf_eq c pl f2 (hgap f2 hf2).2 (k.2, k.1) hq21
        hsides.2 hsides.1
      exact hent

theorem contourPrev_closes (c : voronoicell) (pl : CutPlane)
    (hfv : ∀ g ∈ c.faces, ∀ x ∈ g, x < c.pts.length)
    (hnm : ∀ i < c.pts.length, side c pl i ≠ Side.on)
    (hgap : ∀ f ∈ c.faces,
      ((cyclicPairs f).filter (fun q => decide (side c pl q.1 ≠ Side.outside ∧
        side c pl q.2 = Side.outside))).length ≤ 1 ∧
      ((cyclicPairs f).filter (fun q => decide (side c pl q.1 = Side.outside ∧
        side c pl q.2 ≠ Side.outside))).length ≤ 1)
    (hpu : ∀ f ∈ c.faces, ∀ g ∈ c.faces, ∀ q ∈ cyclicPairs f,
      q ∈ cyclicPairs g → f = g)
    (k : Nat × Nat) (hk : k ∈ crossKeys c pl) (j : Nat)
    (h : contourPrev c pl k = some j) :
    ∃ k2 ∈ crossKeys c pl, j = crossIdx c pl k2 ∧
      contourNext c pl k2 = some (crossIdx c pl k) := by
  unfold contourPrev at h
  cases hfp : faceWithPair c (k.1, k.2) with
  | none => rw [hfp] at h; cases h
  | some f1 =>
      rw [hfp] at h
      have h2 : entryOf c pl f1 = some j := h
      have hf1 : f1 ∈ c.faces := by
        unfold faceWithPair at hfp
        exact List.mem_of_find?_eq_some hfp
      obtain ⟨q, hq, hq1, hq2, hj⟩ := entryOf_some_spec c pl f1 hf1 hfv hnm j h2
      have hk2 : (q.2, q.1) ∈ crossKeys c pl :=
        mem_crossKeys_oi c pl f1 hf1 q hq hq1 hq2
      refine ⟨(q.2, q.1), hk2, hj, ?_⟩
      have hq12 : (k.1, k.2) ∈ cyclicPairs f1 := by
        unfold faceWithPair at hfp
        have hh := List.find?_some hfp
        simpa using hh
      have hsides := crossKeys_sides c pl k hk
      unfold contourNext
      rw [show faceWithPair c ((q.2, q.1).2, (q.2, q.1).1) = some f1 from
        faceWithPair_eq c hpu f1 hf1 q hq]
      have hext := exitOf_eq c pl f1 (hgap f1 hf1).1 (k.1, k.2) hq12
        hsides.1 hsides.2
      exact hext

end voronoicell

namespace voronoicell

/-- The rewired and contour rows of a generic cut contain no duplicate
neighbour. -/
theorem clipRows_nodup (c : voronoicell) (pl : CutPlane)
    (hwf : wellFormed c) (hgc : genericCut c pl) :
    rowsNodup (clipRows c pl) := by
  obtain ⟨⟨hnu, hed⟩, hnd, hsym, hfv, hco1, hco2, hpu, hts⟩ := hwf
  obtain ⟨hnm, hgap⟩ := hgc
  intro v hv
  rw [clipRows_length] at hv
  by_cases hvs : v < (survivors c pl).length
  · rw [clipRows_getD_lt c pl v hvs]
    have hus : (survivors c pl).get ⟨v, hvs⟩ ∈ survivors c pl :=
      List.get_mem _ _ _
    have hult : (survivors c pl).get ⟨v, hvs⟩ < c.pts.length :=
      ((mem_survivors c pl _).mp hus).1
    unfold rewireRow
    apply nodup_filterMap_mem _ _ (nbrHalf_nodup c hnd _ hult)
    intro a ha a2 ha2 b h1 h2
    by_cases hao : side c pl a ≠ Side.outside
    · by_cases ha2o : side c pl a2 ≠ Side.outside
      · rw [if_pos hao] at h1
        rw [if_pos ha2o] at h2
        simp only [Option.some.injEq] at h1 h2
        exact renumber_inj c pl a a2
          (survivor_of_nbr c pl hsym _ hult a ha hao)
          (survivor_of_nbr c pl hsym _ hult a2 ha2 ha2o)
          (h1.trans h2.symm)
      · rw [if_pos hao] at h1
        rw [if_neg ha2o] at h2
        by_cases huo : side c pl ((survivors c pl).get ⟨v, hvs⟩) = Side.inside
        · rw [if_pos huo] at h2
          simp only [Option.some.injEq] at h1 h2
          have hlt := renumber_lt c pl a
            (survivor_of_nbr c pl hsym _ hult a ha hao)
          have hge := crossIdx_ge c pl
            ((survivors c pl).get ⟨v, hvs⟩, a2)
          omega
        · rw [if_neg huo] at h2
          cases h2
    · by_cases ha2o : side c pl a2 ≠ Side.outside
      · rw [if_neg hao] at h1
        rw [if_pos ha2o] at h2
        by_cases huo : side c pl ((survivors c pl).get ⟨v, hvs⟩) = Side.inside
        · rw [if_pos huo] at h1
          simp only [Option.some.injEq] at h1 h2
          have hlt := renumber_lt c pl a2
            (survivor_of_nbr c pl hsym _ hult a2 ha2 ha2o)
          have hge := crossIdx_ge c pl
            ((survivors c pl).get ⟨v, hvs⟩, a)
          omega
        · rw [if_neg huo] at h1
          cases h1
      · rw [if_neg hao] at h1
        rw [if_neg ha2o] at h2
        by_cases huo : side c pl ((survivors c pl).get ⟨v, hvs⟩) = Side.inside
        · rw [if_pos huo] at h1
          rw [if_pos huo] at h2
          simp only [Option.some.injEq] at h1 h2
          have hkey := crossIdx_inj c pl _ _
            (nbr_crossKey c pl hco1 _ hult a ha huo (not_not.mp hao))
            (nbr_crossKey c pl hco1 _ hult a2 ha2 huo (not_not.mp ha2o))
            (h1.trans h2.symm)
          exact (Prod.mk.injEq _ _ _ _ ▸ hkey).2
        · rw [if_neg huo] at h1
          cases h1
  · have ht : v - (survivors c pl).length < (crossKeys c pl).length := by
      omega
    have hvv : v = (survivors c pl).length +
        (v - (survivors c pl).length) := by omega
    rw [hvv, clipRows_getD_ge c pl _ ht]
    exact List.nodup_dedup _

end voronoicell

namespace voronoicell

/-- Every half-edge of the rewired table has its mate: a surviving
neighbour points back through its own rewired row, a crossing edge's
contour vertex points back to the inside endpoint that created it, and the
contour records close up through the neighbouring cut faces. -/
theorem clipRows_sym (c : voronoicell) (pl : CutPlane)
    (hwf : wellFormed c) (hgc : genericCut c pl) :
    rowsSym (clipRows c pl) := by
  obtain ⟨⟨hnu, hed⟩, hnd, hsym, hfv, hco1, hco2, hpu, hts⟩ := hwf
  obtain ⟨hnm, hgap⟩ := hgc
  intro v hv j hj
  rw [clipRows_length] at hv ⊢
  by_cases hvs : v < (survivors c pl).length
  · rw [clipRows_getD_lt c pl v hvs] at hj
    have hus : (survivors c pl).get ⟨v, hvs⟩ ∈ survivors c pl :=
      List.get_mem _ _ _
    have hult : (survivors c pl).get ⟨v, hvs⟩ < c.pts.length :=
      ((mem_survivors c pl _).mp hus).1
    obtain ⟨w, hw, hor⟩ := (mem_rewireRow c pl _ j).mp hj
    rcases hor with ⟨hwo, hjr⟩ | ⟨hwo, huo, hjc⟩
    · have hws : w ∈ survivors c pl :=
        survivor_of_nbr c pl hsym _ hult w hw hwo
      subst hjr
      have hjlt := renumber_lt c pl w hws
      refine ⟨by omega, ?_⟩
      rw [clipRows_getD_lt c pl _ hjlt]
      rw [survivors_get_renumber c pl w hws]
      exact (mem_rewireRow c pl w v).mpr
        ⟨(survivors c pl).get ⟨v, hvs⟩,
          (nbrHalf_sym c hsym _ hult w hw).2, Or.inl
          ⟨((mem_survivors c pl _).mp hus).2,
            (renumber_get c pl v hvs).symm⟩⟩
    · have hkK : ((survivors c pl).get ⟨v, hvs⟩, w) ∈ crossKeys c pl :=
        nbr_crossKey c pl hco1 _ hult w hw huo hwo
      subst hjc
      refine ⟨by have := crossIdx_lt c pl _ hkK; omega, ?_⟩
      have hsplit : crossIdx c pl ((survivors c pl).get ⟨v, hvs⟩, w) =
          (survivors c pl).length +
          (crossIdx c pl ((survivors c pl).get ⟨v, hvs⟩, w) -
            (survivors c pl).length) := by
        have := crossIdx_ge c pl ((survivors c pl).get ⟨v, hvs⟩, w); omega
      rw [hsplit, clipRows_getD_ge c pl _ (crossIdx_indexOf_lt c pl _ hkK)]
      rw [crossKeys_get_crossIdx c pl _ hkK]
      exact (mem_contourRow c pl _ v).mpr
        (Or.inl (renumber_get c pl v hvs).symm)
  · have ht : v - (survivors c pl).length < (crossKeys c pl).length := by
      omega
    have hvv : v = (survivors c pl).length +
        (v - (survivors c pl).length) := by omega
    rw [hvv, clipRows_getD_ge c pl _ ht] at hj
    have hkK : (crossKeys c pl).get ⟨v - (survivors c pl).length, ht⟩ ∈
        crossKeys c pl := List.get_mem _ _ _
    have hvK : crossIdx c pl
        ((crossKeys c pl).get ⟨v - (survivors c pl).length, ht⟩) = v := by
      rw [crossIdx_get c pl _ ht]; omega
    rcases (mem_contourRow c pl _ j).mp hj with hB1 | hB2 | hB3
    · have hsides := crossKeys_sides c pl _ hkK
      have hbounds := crossKeys_bounds c pl hfv _ hkK
      have hk1s : ((crossKeys c pl).get
          ⟨v - (survivors c pl).length, ht⟩).1 ∈ survivors c pl :=
        (mem_survivors c pl _).mpr ⟨hbounds.1,
          by rw [hsides.1]; exact fun hc => Side.noConfusion hc⟩
      subst hB1
      have hjlt := renumber_lt c pl _ hk1s
      refine ⟨by omega, ?_⟩
      rw [clipRows_getD_lt c pl _ hjlt, survivors_get_renumber c pl _ hk1s]
      exact (mem_rewireRow c pl _ v).mpr
        ⟨((crossKeys c pl).get ⟨v - (survivors c pl).length, ht⟩).2,
          (key_nbr c pl hco2 _ hkK).1, Or.inr
          ⟨hsides.2, hsides.1, hvK.symm⟩⟩
    · obtain ⟨k2, hk2, hj2, hprev⟩ := contourNext_closes c pl hfv hnm hgap
        hpu _ hkK j hB2
      subst hj2
      refine ⟨by have := crossIdx_lt c pl k2 hk2; omega, ?_⟩
      have hsplit : crossIdx c pl k2 = (survivors c pl).length +
          (crossIdx c pl k2 - (survivors c pl).length) := by
        have := crossIdx_ge c pl k2; omega
      rw [hsplit, clipRows_getD_ge c pl _ (crossIdx_indexOf_lt c pl k2 hk2),
        crossKeys_get_crossIdx c pl k2 hk2]
      refine (mem_contourRow c pl k2 v).mpr (Or.inr (Or.inr ?_))
      rw [hprev, hvK]
    · obtain ⟨k2, hk2, hj2, hnext⟩ := contourPrev_closes c pl hfv hnm hgap
        hpu _ hkK j hB3
      subst hj2
      refine ⟨by have := crossIdx_lt c pl k2 hk2; omega, ?_⟩
      have hsplit : crossIdx c pl k2 = (survivors c pl).length +
          (crossIdx c pl k2 - (survivors c pl).length) := by
        have := crossIdx_ge c pl k2; omega
      rw [hsplit, clipRows_getD_ge c pl _ (crossIdx_indexOf_lt c pl k2 hk2),
        crossKeys_get_crossIdx c pl k2 hk2]
      refine (mem_contourRow c pl k2 v).mpr (Or.inr (Or.inl ?_))
      rw [hnext, hvK]

end voronoicell

/-- The S2 cut is in general position: no marginal vertex, and each face
of the box crosses the plane `x = 1/2` in at most one arc. -/
theorem s2_genericCut : voronoicell.genericCut s2box s2pl := by
  constructor
  · intro i hi
    have hi8 : i < 8 := hi
    interval_cases i
    · rw [s2_side0]; intro hc; cases hc
    · rw [s2_side1]; intro hc; cases hc
    · rw [s2_side2]; intro hc; cases hc
    · rw [s2_side3]; intro hc; cases hc
    · rw [s2_side4]; intro hc; cases hc
    · rw [s2_side5]; intro hc; cases hc
    · rw [s2_side6]; intro hc; cases hc
    · rw [s2_side7]; intro hc; cases hc
  · intro f hf
    have h0 := s2_side0
    have h1 := s2_side1
    have h2 := s2_side2
    have h3 := s2_side3
    have h4 := s2_side4
    have h5 := s2_side5
    have h6 := s2_side6
    have h7 := s2_side7
    fin_cases hf
    · rw [show voronoicell.cyclicPairs [0, 2, 3, 1] =
        [(0, 2), (2, 3), (3, 1), (1, 0)] from by decide]
      constructor <;>
        simp [List.filter, h0, h1, h2, h3]
    · rw [show voronoicell.cyclicPairs [4, 5, 7, 6] =
        [(4, 5), (5, 7), (7, 6), (6, 4)] from by decide]
      constructor <;>
        simp [List.filter, h4, h5, h6, h7]
    · rw [show voronoicell.cyclicPairs [0, 1, 5, 4] =
        [(0, 1), (1, 5), (5, 4), (4, 0)] from by decide]
      constructor <;>
        simp [List.filter, h0, h1, h4, h5]
    · rw [show voronoicell.cyclicPairs [2, 6, 7, 3] =
        [(2, 6), (6, 7), (7, 3), (3, 2)] from by decide]
      constructor <;>
        simp [List.filter, h2, h3, h6, h7]
    · rw [show voronoicell.cyclicPairs [0, 4, 6, 2] =
        [(0, 4), (4, 6), (6, 2), (2, 0)] from by decide]
      constructor <;>
        simp [List.filter, h0, h2, h4, h6]
    · rw [show voronoicell.cyclicPairs [1, 3, 7, 5] =
        [(1, 3), (3, 7), (7, 5), (5, 1)] from by decide]
      constructor <;>
        simp [List.filter, h1, h3, h5, h7]

instance (c : voronoicell) : Decidable (voronoicell.wellFormed c) := by
  unfold voronoicell.wellFormed voronoicell.rowsNodup voronoicell.rowsSym
  infer_instance

